import Mathlib

/-!
# kpenfound/qr: the grid pipeline of `main.go`

A shallow embedding of the pure part of the command: `scaleMatrix`, `addBorder`,
`convertSizeScale` and the line building of `renderQRToTerminal`.

* A grid `[][]bool` is a `List (List Bool)`; Go's `int` is `Int`.  The border width is
  the value of a flag and can be any 64 bit integer, so the arithmetic of `addBorder`
  (`borderSize * 2`, the new size, the write indices) is wrapped into 64 bits, and a
  negative length or index is a panic.  In `scaleMatrix` no integer operation can
  wrap.  Allocation itself is not modelled; where a statement about the binary64
  arithmetic needs the sizes to be small (`t < 2^53`, `t * n <= 2^51`), the bound is a
  hypothesis of the theorem.
* An index out of range is a Go run-time panic; the functions return `Option` and
  `none` stands for that panic.
* `float64` is IEEE 754 binary64.  `scaleMatrix` only ever divides non-negative
  numbers, so a value is a pair `mant * 2^exp` and a division is the exact quotient
  rounded to 53 significant bits, ties to even.
-/

namespace QR

/-! ## binary64 arithmetic of `scaleMatrix` -/

/-- A non-negative finite binary64 value `mant * 2 ^ exp`. -/
structure F64 where
  mant : Nat
  exp : Int
  deriving DecidableEq, Repr

namespace F64

/-- The binary logarithm by repeated halving; `fuel` bounds the number of halvings. -/
def log2Fuel : Nat → Nat → Nat
  | 0, _ => 0
  | fuel + 1, n => if n < 2 then 0 else log2Fuel fuel (n / 2) + 1

/-- The position of the leading binary digit of `n`: the largest `k` with `2 ^ k ≤ n`
(and 0 for `n = 0`). -/
def log2 (n : Nat) : Nat := log2Fuel n n

/-- The quotient `a / b` of two naturals rounded to the nearest value with a 53 bit
significand, ties to even (the IEEE 754 default rounding, which Go uses).  The
divisor is positive at every use. -/
def roundDiv (a b : Nat) : F64 :=
  if a = 0 then ⟨0, 0⟩
  else
    -- `a / b` lies strictly between `2 ^ (la - lb - 1)` and `2 ^ (la - lb + 1)`
    let e1 : Int := (log2 a : Int) - (log2 b : Int) - 52
    let num1 := if e1 < 0 then a * 2 ^ (-e1).toNat else a
    let den1 := if e1 < 0 then b else b * 2 ^ e1.toNat
    -- one more bit when the quotient is still below `2 ^ 52`
    let e : Int := if num1 / den1 < 2 ^ 52 then e1 - 1 else e1
    let num := if e < 0 then a * 2 ^ (-e).toNat else a
    let den := if e < 0 then b else b * 2 ^ e.toNat
    let q := num / den
    let r := num % den
    if 2 * r < den then ⟨q, e⟩
    else if den < 2 * r then ⟨q + 1, e⟩
    else if q % 2 = 0 then ⟨q, e⟩
    else ⟨q + 1, e⟩

/-- The conversion `float64(n)` of a non-negative integer. -/
def ofNat (n : Nat) : F64 := roundDiv n 1

/-- The division `x / y` of binary64 values: the quotient of the significands is
rounded and the exponents subtract. -/
def div (x y : F64) : F64 :=
  let r := roundDiv x.mant y.mant
  ⟨r.mant, r.exp + x.exp - y.exp⟩

/-- The conversion `int(x)`: truncation towards zero. -/
def toNat (x : F64) : Nat :=
  if x.exp < 0 then x.mant / 2 ^ (-x.exp).toNat else x.mant * 2 ^ x.exp.toNat

end F64

/-! ## grids -/

/-- The read `matrix[y][x]`; `none` is the index-out-of-range panic. -/
def index2 (matrix : List (List Bool)) (y x : Nat) : Option Bool :=
  match matrix[y]? with
  | none => none
  | some row => row[x]?

/-- The write `matrix[y][x] = v`; `none` is the index-out-of-range panic. -/
def assign2 (matrix : List (List Bool)) (y x : Nat) (v : Bool) :
    Option (List (List Bool)) :=
  match matrix[y]? with
  | none => none
  | some row => if x < row.length then some (matrix.set y (row.set x v)) else none

/-- The allocation `make([][]bool, size)` followed by `make([]bool, size)` for every
row: a `size × size` grid of `false`. -/
def makeGrid (size : Nat) : List (List Bool) :=
  List.replicate size (List.replicate size false)

/-- The source coordinate of output coordinate `y`:
`int(float64(y) / scale)`, lowered to `originalSize - 1` when it is not below
`originalSize`. -/
def origCoord (scale : F64) (originalSize y : Nat) : Nat :=
  let orig := (F64.div (F64.ofNat y) scale).toNat
  if orig ≥ originalSize then originalSize - 1 else orig

/-- Go `scaleMatrix`. -/
def scaleMatrix (matrix : List (List Bool)) (targetSize : Int) : Option (List (List Bool)) :=
  if targetSize ≤ 0 ∨ matrix.length = 0 then some matrix
  else
    let originalSize := matrix.length
    if targetSize = (originalSize : Int) then some matrix
    else
      let scale := F64.div (F64.ofNat targetSize.toNat) (F64.ofNat originalSize)
      let scaled := makeGrid targetSize.toNat
      (List.range targetSize.toNat).foldlM (fun acc y =>
        (List.range targetSize.toNat).foldlM (fun acc x =>
          let origY := origCoord scale originalSize y
          let origX := origCoord scale originalSize x
          (index2 matrix origY origX).bind (assign2 acc y x)) acc) scaled

/-- The largest value of Go's 64 bit `int`. -/
def maxInt : Int := 9223372036854775807

/-- The value of an `int` operation whose exact result is `x`: `x` wrapped into 64
bits, two's complement. -/
def wrapInt (x : Int) : Int :=
  (x + 9223372036854775808) % 18446744073709551616 - 9223372036854775808

/-- The write `matrix[y][x] = v` at `int` indices; `none` is the index-out-of-range
panic, which a negative index raises too. -/
def assignInt (matrix : List (List Bool)) (y x : Int) (v : Bool) :
    Option (List (List Bool)) :=
  if y < 0 ∨ x < 0 then none else assign2 matrix y.toNat x.toNat v

/-- Go `addBorder`.  The sums `originalSize + borderSize * 2`, `y + borderSize` and
`x + borderSize` wrap at 64 bits, and `make` panics on a negative length. -/
def addBorder (matrix : List (List Bool)) (borderSize : Int) : Option (List (List Bool)) :=
  if borderSize ≤ 0 ∨ matrix.length = 0 then some matrix
  else
    let originalSize : Int := (matrix.length : Int)
    let newSize := wrapInt (originalSize + wrapInt (borderSize * 2))
    if newSize < 0 then none
    else
      let borderedMatrix := makeGrid newSize.toNat
      (List.range matrix.length).foldlM (fun acc y =>
        (List.range matrix.length).foldlM (fun acc x =>
          (index2 matrix y x).bind
            (assignInt acc (wrapInt ((y : Int) + borderSize))
              (wrapInt ((x : Int) + borderSize)))) acc) borderedMatrix

/-- The table `sizeMap` of `convertSizeScale`. -/
def sizeMap : List Int := [25, 29, 33, 37, 41, 45, 49, 53, 57, 61]

/-- Go `convertSizeScale`; `none` would be the panic of `sizeMap[userSize-1]`. -/
def convertSizeScale (userSize : Int) : Option Int :=
  if userSize < 1 ∨ userSize > 10 then some 25
  else sizeMap[(userSize - 1).toNat]?

/-- The glyph of a dark module. -/
def fullBlock : String := "██"

/-- The glyph of a light module. -/
def emptyBlock : String := "  "

/-- The line that `renderQRToTerminal` builds for one row: the inner loop over the
modules of the row, appending to the `strings.Builder`. -/
def renderLine (isTTY : Bool) (row : List Bool) : String :=
  row.foldl (fun line module =>
    if module then
      if isTTY then line ++ fullBlock else line ++ "██"
    else
      if isTTY then line ++ emptyBlock else line ++ "  ") ""

/-- Go `renderQRToTerminal`: the lines handed to `fmt.Println`, in order. -/
def renderQRToTerminal (matrix : List (List Bool)) (isTTY : Bool) (targetSize border : Int) :
    Option (List String) :=
  match scaleMatrix matrix targetSize with
  | none => none
  | some scaled =>
    match (if border > 0 then addBorder scaled border else some scaled) with
    | none => none
    | some scaledMatrix => some (scaledMatrix.map (renderLine isTTY))

/-! ## predicates of the specification -/

/-- A grid is square: every row is as long as the grid has rows. -/
def IsSquare (g : List (List Bool)) : Prop := ∀ row ∈ g, row.length = g.length

instance (g : List (List Bool)) : Decidable (IsSquare g) := by
  unfold IsSquare; infer_instance

/-- The source coordinate as the specification words it: `scaleFactor` is the exact
quotient `targetSize / originalSize`, the coordinate is `floor (y / scaleFactor)`,
clamped to `originalSize - 1` (it is never negative). -/
def exactCoord (targetSize originalSize y : Nat) : Nat :=
  min ⌊(y : ℚ) / ((targetSize : ℚ) / (originalSize : ℚ))⌋₊ (originalSize - 1)

/-- The 21 × 21 grid (the size of a version 1 symbol) whose row 15 is dark and whose
other rows are light. -/
def stripe21 : List (List Bool) :=
  (List.range 21).map fun i => (List.range 21).map fun _ => decide (i = 15)

/-- The row lengths of a grid. -/
def shape (m : List (List Bool)) : List Nat := m.map List.length


/-! ## the terminal sizer and the command driver -/

/-- Go `min`. -/
def min (a b : Int) : Int := if a < b then a else b

/-- Go `calculateOptimalSize`, as a function of what the terminal answers:
`isTerminal` is `term.IsTerminal(stdout)` and `termSize` is the result of
`term.GetSize(stdout)`, `none` when it returns an error and `some (width, height)`
otherwise.  Go's `/` on `int` truncates towards zero. -/
def calculateOptimalSize (isTerminal : Bool) (termSize : Option (Int × Int)) : Int :=
  if isTerminal then
    match termSize with
    | some (width, height) =>
      let maxSize := QR.min (Int.tdiv width 2 - 4) (height - 6)
      if maxSize > 10 ∧ maxSize < 50 then maxSize else 25
    | none => 25
  else 25

/-- The `Config` struct. -/
structure Config where
  text : String
  size : Int
  outputFile : String
  quiet : Bool
  border : Int

/-- What the command takes from outside the repository: the go-qrcode library, the
terminal, and the usage text of the flag package. -/
structure World where
  /-- The call `qrcode.New(text, qrcode.Medium)`: its error, or the symbol, given by
  the grid that `Bitmap()` returns with `DisableBorder = true`. -/
  encode : String → Except String (List (List Bool))
  /-- The call `qr.WriteFile(256, path)` for the symbol of a text, with the value of
  `DisableBorder`: `some err` is the error it returns, `none` is `nil`. -/
  writeFile : String → Bool → String → Option String
  /-- The answer of `term.IsTerminal(int(os.Stdout.Fd()))`. -/
  isTerminal : Bool
  /-- The answer of `term.GetSize(int(os.Stdout.Fd()))`. -/
  termSize : Option (Int × Int)
  /-- The lines `flag.Usage()` writes to the error stream. -/
  usage : List String

/-- Go `generateQR`: `none` is a run-time panic, `some (.error msg)` is the returned
error, and `some (.ok lines)` is the return of `nil` after `lines` were written to
standard output. -/
def generateQR (w : World) (config : Config) : Option (Except String (List String)) :=
  if config.outputFile ≠ "" then
    match w.encode config.text with
    | .error err => some (.error ("failed to generate QR code: " ++ err))
    | .ok _ =>
      match w.writeFile config.text (decide (config.border ≤ 0)) config.outputFile with
      | some err => some (.error err)
      | none => some (.ok [])
  else
    match w.encode config.text with
    | .error err => some (.error ("failed to generate QR code: " ++ err))
    | .ok bitmap =>
      match (if config.size = 0 ∨ config.size < 1 ∨ config.size > 10 then
          some (calculateOptimalSize w.isTerminal w.termSize)
        else convertSizeScale config.size) with
      | none => none
      | some size =>
        let isTTY := w.isTerminal
        let banner :=
          if !config.quiet && isTTY then ["QR Code for: " ++ config.text, ""] else []
        match renderQRToTerminal bitmap isTTY size config.border with
        | none => none
        | some lines =>
          some (.ok (banner ++ lines ++ (if !config.quiet && isTTY then [""] else [])))

/-- How a run of the command ends: the exit status and what went to the two
streams. -/
structure Exit where
  code : Nat
  stdout : List String
  stderr : List String
  deriving DecidableEq

/-- Go `main`, from the `Config` that `parseFlags` returns; `none` is a run-time
panic. -/
def main (w : World) (config : Config) : Option Exit :=
  if config.text = "" then
    some ⟨1, [], "Error: text to encode is required" :: w.usage⟩
  else
    match generateQR w config with
    | none => none
    | some (.error err) => some ⟨1, [], ["Error: " ++ err]⟩
    | some (.ok lines) => some ⟨0, lines, []⟩

/-- A stand-in for the library: it refuses the empty text, as go-qrcode does, and
encodes every other text as the 1 × 1 dark grid. -/
def fakeWorld : World where
  encode := fun text => if text = "" then .error "no data to encode" else .ok [[true]]
  writeFile := fun _ _ _ => none
  isTerminal := false
  termSize := none
  usage := []

/-! ## values for the proofs -/

/-- The `n × n` grid whose row `k` is dark and whose other rows are light. -/
def stripe (n k : Nat) : List (List Bool) :=
  (List.range n).map fun i => (List.range n).map fun _ => decide (i = k)

/-- The rational number a binary64 value stands for. -/
def F64.val (x : F64) : ℚ := (x.mant : ℚ) * (2 : ℚ) ^ x.exp

/-- The numerator of `a / b / 2 ^ e` written as a quotient of two naturals. -/
def F64.scaleNum (a : Nat) (e : Int) : Nat := if e < 0 then a * 2 ^ (-e).toNat else a

/-- The denominator of `a / b / 2 ^ e` written as a quotient of two naturals. -/
def F64.scaleDen (b : Nat) (e : Int) : Nat := if e < 0 then b else b * 2 ^ e.toNat

/-- The exponent that `roundDiv a b` selects. -/
def F64.quotExp (a b : Nat) : Int :=
  if F64.scaleNum a ((F64.log2 a : Int) - (F64.log2 b : Int) - 52) /
      F64.scaleDen b ((F64.log2 a : Int) - (F64.log2 b : Int) - 52) < 2 ^ 52 then
    (F64.log2 a : Int) - (F64.log2 b : Int) - 52 - 1
  else (F64.log2 a : Int) - (F64.log2 b : Int) - 52

/-- The integer nearest to `num / den`, ties to even: the significand that
`roundDiv` selects. -/
def F64.nearestEven (num den : Nat) : Nat :=
  if 2 * (num % den) < den then num / den
  else if den < 2 * (num % den) then num / den + 1
  else if num / den % 2 = 0 then num / den
  else num / den + 1

/-- The rational `v` is a value with a 53 bit significand that is nearest to the
positive rational `w`, and `w` itself when `w` is such a value. -/
def Rounds (v w : ℚ) : Prop :=
  ∃ (e : ℤ) (m : ℕ), v = (m : ℚ) * (2 : ℚ) ^ e ∧ (2 : ℚ) ^ 52 ≤ w / (2 : ℚ) ^ e ∧
    w / (2 : ℚ) ^ e < (2 : ℚ) ^ 53 ∧ |(m : ℚ) - w / (2 : ℚ) ^ e| ≤ 1 / 2 ∧
    ∀ k : ℕ, w / (2 : ℚ) ^ e = (k : ℚ) → m = k

/-! ## the two nested loops -/

theorem index2_isSome (m : List (List Bool)) (y x : Nat) (h : (index2 m y x).isSome) :
    ∃ row, m[y]? = some row ∧ y < m.length ∧ x < row.length := by
  unfold index2 at h
  cases hr : m[y]? with
  | none => rw [hr] at h; cases h
  | some row =>
    rw [hr] at h
    refine ⟨row, rfl, ?_, ?_⟩
    · by_contra hc
      rw [List.getElem?_eq_none (by omega)] at hr
      cases hr
    · by_contra hc
      have hx : row[x]? = none := List.getElem?_eq_none (by omega)
      simp [hx] at h

theorem assign2_spec (m : List (List Bool)) (y x : Nat) (v : Bool)
    (h : (index2 m y x).isSome) :
    ∃ out, assign2 m y x v = some out ∧ shape out = shape m ∧
      ∀ i j, index2 out i j = if i = y ∧ j = x then some v else index2 m i j := by
  obtain ⟨row, hrow, hy, hx⟩ := index2_isSome m y x h
  refine ⟨m.set y (row.set x v), ?_, ?_, ?_⟩
  · unfold assign2
    rw [hrow]
    simp [hx]
  · simp only [shape]
    apply List.ext_getElem?
    intro i
    simp only [List.getElem?_map, List.getElem?_set]
    by_cases hi : y = i
    · subst hi
      simp [hy, hrow]
    · simp [hi]
  · intro i j
    by_cases hi : i = y
    · subst hi
      simp only [index2, List.getElem?_set, hy, hrow, if_true, true_and]
      by_cases hj : j = x
      · subst hj
        simp [hx]
      · simp [hj, Ne.symm hj]
    · have : ¬ (i = y ∧ j = x) := fun hc => hi hc.1
      simp only [this, if_false]
      simp [index2, List.getElem?_set, Ne.symm hi]

theorem shape_makeGrid (n : Nat) : shape (makeGrid n) = List.replicate n n := by
  simp [shape, makeGrid]

theorem index2_makeGrid (n i j : Nat) :
    index2 (makeGrid n) i j = if i < n ∧ j < n then some false else none := by
  unfold index2 makeGrid
  by_cases hi : i < n
  · by_cases hj : j < n
    · simp [hi, hj, List.getElem?_replicate]
    · simp [hi, hj, List.getElem?_replicate]
  · simp [hi, List.getElem?_replicate]

/-- The inner loop: `k` reads that succeed, each written to row `r` at column
`x + off`, on a grid that has those cells. -/
theorem rowLoop_spec (rd : Nat → Option Bool) (g : Nat → Bool) (r off : Nat) :
    ∀ (k : Nat) (acc : List (List Bool)), (∀ x, x < k → rd x = some (g x)) →
      (∀ x, x < k → (index2 acc r (x + off)).isSome) →
      ∃ out, (List.range k).foldlM
          (fun acc x => (rd x).bind (assign2 acc r (x + off))) acc = some out ∧
        shape out = shape acc ∧
        ∀ i j, index2 out i j =
          if i = r ∧ off ≤ j ∧ j < off + k then some (g (j - off))
          else index2 acc i j := by
  intro k
  induction k with
  | zero =>
    intro acc _ _
    refine ⟨acc, by simp, rfl, ?_⟩
    intro i j
    have : ¬ (i = r ∧ off ≤ j ∧ j < off + 0) := by omega
    rw [if_neg this]
  | succ k ih =>
    intro acc hrd hin
    obtain ⟨out, hfold, hshape, hcell⟩ :=
      ih acc (fun x hx => hrd x (by omega)) (fun x hx => hin x (by omega))
    have hk : (index2 out r (k + off)).isSome := by
      have h0 : ¬ (r = r ∧ off ≤ k + off ∧ k + off < off + k) := by omega
      rw [hcell, if_neg h0]
      exact hin k (by omega)
    obtain ⟨out2, hset, hshape2, hcell2⟩ := assign2_spec out r (k + off) (g k) hk
    refine ⟨out2, ?_, ?_, ?_⟩
    · rw [List.range_succ, List.foldlM_append, hfold]
      simp [hrd k (by omega), hset]
    · rw [hshape2, hshape]
    · intro i j
      rw [hcell2, hcell]
      by_cases h1 : i = r ∧ j = k + off
      · have h3 : i = r ∧ off ≤ j ∧ j < off + (k + 1) := by omega
        have h6 : j - off = k := by omega
        rw [if_pos h1, if_pos h3, h6]
      · rw [if_neg h1]
        by_cases h4 : i = r ∧ off ≤ j ∧ j < off + k
        · have h5 : i = r ∧ off ≤ j ∧ j < off + (k + 1) := by omega
          rw [if_pos h4, if_pos h5]
        · have h5 : ¬ (i = r ∧ off ≤ j ∧ j < off + (k + 1)) := by omega
          rw [if_neg h4, if_neg h5]

/-- The two nested loops: `k` rows of `c` reads that succeed, the value read at
`(y, x)` written to `(y + oy, x + ox)`, on a grid that has those cells. -/
theorem gridLoop_spec (rd : Nat → Nat → Option Bool) (g : Nat → Nat → Bool) (oy ox c : Nat) :
    ∀ (k : Nat) (acc : List (List Bool)),
      (∀ y x, y < k → x < c → rd y x = some (g y x)) →
      (∀ y x, y < k → x < c → (index2 acc (y + oy) (x + ox)).isSome) →
      ∃ out, (List.range k).foldlM (fun acc y =>
          (List.range c).foldlM
            (fun acc x => (rd y x).bind (assign2 acc (y + oy) (x + ox))) acc) acc = some out ∧
        shape out = shape acc ∧
        ∀ i j, index2 out i j =
          if oy ≤ i ∧ i < oy + k ∧ ox ≤ j ∧ j < ox + c then some (g (i - oy) (j - ox))
          else index2 acc i j := by
  intro k
  induction k with
  | zero =>
    intro acc _ _
    refine ⟨acc, by simp, rfl, ?_⟩
    intro i j
    have : ¬ (oy ≤ i ∧ i < oy + 0 ∧ ox ≤ j ∧ j < ox + c) := by omega
    rw [if_neg this]
  | succ k ih =>
    intro acc hrd hin
    obtain ⟨out, hfold, hshape, hcell⟩ :=
      ih acc (fun y x hy hx => hrd y x (by omega) hx) (fun y x hy hx => hin y x (by omega) hx)
    obtain ⟨out2, hfold2, hshape2, hcell2⟩ :=
      rowLoop_spec (rd k) (g k) (k + oy) ox c out (fun x hx => hrd k x (by omega) hx)
        (by
          intro x hx
          have h0 : ¬ (oy ≤ k + oy ∧ k + oy < oy + k ∧ ox ≤ x + ox ∧ x + ox < ox + c) := by
            omega
          rw [hcell, if_neg h0]
          exact hin k x (by omega) hx)
    refine ⟨out2, ?_, ?_, ?_⟩
    · rw [List.range_succ, List.foldlM_append, hfold]
      simpa using hfold2
    · rw [hshape2, hshape]
    · intro i j
      rw [hcell2, hcell]
      by_cases h1 : i = k + oy ∧ ox ≤ j ∧ j < ox + c
      · have h3 : oy ≤ i ∧ i < oy + (k + 1) ∧ ox ≤ j ∧ j < ox + c := by omega
        have h6 : i - oy = k := by omega
        rw [if_pos h1, if_pos h3, h6]
      · rw [if_neg h1]
        by_cases h4 : oy ≤ i ∧ i < oy + k ∧ ox ≤ j ∧ j < ox + c
        · have h5 : oy ≤ i ∧ i < oy + (k + 1) ∧ ox ≤ j ∧ j < ox + c := by omega
          rw [if_pos h4, if_pos h5]
        · have h5 : ¬ (oy ≤ i ∧ i < oy + (k + 1) ∧ ox ≤ j ∧ j < ox + c) := by omega
          rw [if_neg h4, if_neg h5]

theorem grid_ext (a b : List (List Bool)) (hs : shape a = shape b)
    (hc : ∀ i j, index2 a i j = index2 b i j) : a = b := by
  apply List.ext_getElem?
  intro i
  have hi : (shape a)[i]? = (shape b)[i]? := by rw [hs]
  simp only [shape, List.getElem?_map] at hi
  cases ha : a[i]? with
  | none =>
    cases hb : b[i]? with
    | none => rfl
    | some rb => rw [ha, hb] at hi; cases hi
  | some ra =>
    cases hb : b[i]? with
    | none => rw [ha, hb] at hi; cases hi
    | some rb =>
      congr 1
      apply List.ext_getElem?
      intro j
      have := hc i j
      simpa [index2, ha, hb] using this

theorem length_of_shape (r : List (List Bool)) (n : Nat)
    (h : shape r = List.replicate n n) : r.length = n ∧ ∀ row ∈ r, row.length = n := by
  constructor
  · have := congrArg List.length h
    simpa [shape] using this
  · intro row hrow
    have hm : row.length ∈ shape r := List.mem_map_of_mem _ hrow
    rw [h] at hm
    exact (List.mem_replicate.mp hm).2

theorem index2_square (g : List (List Bool)) (hsq : IsSquare g) (i j : Nat)
    (hi : i < g.length) (hj : j < g.length) : ∃ b, index2 g i j = some b := by
  have hrow : (g[i]).length = g.length := hsq _ (List.getElem_mem hi)
  refine ⟨(g[i])[j], ?_⟩
  simp [index2, List.getElem?_eq_getElem hi, List.getElem?_eq_getElem (hrow ▸ hj)]

theorem origCoord_lt (scale : F64) (n y : Nat) (hn : 0 < n) : origCoord scale n y < n := by
  unfold origCoord
  simp only
  split_ifs with h
  · omega
  · omega

/-- What `scaleMatrix` computes when it allocates: a `targetSize × targetSize` grid
whose cell `(y, x)` is the source cell at the two mapped coordinates. -/
theorem scaleMatrix_spec (g : List (List Bool)) (t : Int) (hne : g ≠ [])
    (hsq : IsSquare g) (ht : 0 < t) (hneq : t ≠ (g.length : Int)) :
    ∃ r, scaleMatrix g t = some r ∧
      shape r = List.replicate t.toNat t.toNat ∧
      ∀ y x, y < t.toNat → x < t.toNat →
        index2 r y x =
          index2 g
            (origCoord (F64.div (F64.ofNat t.toNat) (F64.ofNat g.length)) g.length y)
            (origCoord (F64.div (F64.ofNat t.toNat) (F64.ofNat g.length)) g.length x) := by
  have hlen : 0 < g.length := List.length_pos.mpr hne
  obtain ⟨out, hfold, hshape, hcell⟩ :=
    gridLoop_spec
      (fun y x => index2 g
        (origCoord (F64.div (F64.ofNat t.toNat) (F64.ofNat g.length)) g.length y)
        (origCoord (F64.div (F64.ofNat t.toNat) (F64.ofNat g.length)) g.length x))
      (fun y x => (index2 g
        (origCoord (F64.div (F64.ofNat t.toNat) (F64.ofNat g.length)) g.length y)
        (origCoord (F64.div (F64.ofNat t.toNat) (F64.ofNat g.length)) g.length x)).getD false)
      0 0 t.toNat t.toNat (makeGrid t.toNat)
      (by
        intro y x _ _
        obtain ⟨b, hb⟩ := index2_square g hsq _ _
          (origCoord_lt (F64.div (F64.ofNat t.toNat) (F64.ofNat g.length)) g.length y hlen)
          (origCoord_lt (F64.div (F64.ofNat t.toNat) (F64.ofNat g.length)) g.length x hlen)
        simp [hb])
      (by
        intro y x hy hx
        have h0 : y + 0 < t.toNat ∧ x + 0 < t.toNat := by omega
        rw [index2_makeGrid, if_pos h0]
        rfl)
  refine ⟨out, ?_, ?_, ?_⟩
  · unfold scaleMatrix
    have h1 : ¬ (t ≤ 0 ∨ g.length = 0) := by omega
    rw [if_neg h1]
    simp only
    rw [if_neg hneq]
    exact hfold
  · rw [hshape, shape_makeGrid]
  · intro y x hy hx
    rw [hcell, index2_makeGrid]
    have h2 : 0 ≤ y ∧ y < 0 + t.toNat ∧ 0 ≤ x ∧ x < 0 + t.toNat := by omega
    rw [if_pos h2]
    obtain ⟨b, hb⟩ := index2_square g hsq _ _
      (origCoord_lt (F64.div (F64.ofNat t.toNat) (F64.ofNat g.length)) g.length y hlen)
      (origCoord_lt (F64.div (F64.ofNat t.toNat) (F64.ofNat g.length)) g.length x hlen)
    simp [hb]

theorem shape_of_square (g : List (List Bool)) (hsq : IsSquare g) :
    shape g = List.replicate g.length g.length := by
  rw [List.eq_replicate_iff]
  refine ⟨by simp [shape], ?_⟩
  intro k hk
  obtain ⟨row, hrow, rfl⟩ := List.mem_map.mp hk
  exact hsq row hrow

theorem square_of_shape (r : List (List Bool)) (n : Nat)
    (h : shape r = List.replicate n n) : IsSquare r := by
  obtain ⟨hlen, hrows⟩ := length_of_shape r n h
  intro row hrow
  rw [hrows row hrow, hlen]

theorem wrapInt_eq (x : Int) (h1 : -9223372036854775808 ≤ x)
    (h2 : x ≤ 9223372036854775807) : wrapInt x = x := by
  unfold wrapInt
  omega

theorem foldlM_congr_mem {α β : Type} (f g : β → α → Option β) (l : List α)
    (h : ∀ b a, a ∈ l → f b a = g b a) (init : β) :
    l.foldlM f init = l.foldlM g init := by
  induction l generalizing init with
  | nil => rfl
  | cons a l ih =>
    rw [List.foldlM_cons, List.foldlM_cons, h init a (List.mem_cons_self a l)]
    cases g init a with
    | none => rfl
    | some b =>
      exact ih (fun b x hx => h b x (List.mem_cons_of_mem a hx)) b

/-- What `addBorder` computes when it allocates and nothing wraps: a grid of side
`originalSize + 2 * borderSize` that is `false` except for the copy of the input at
offset `(borderSize, borderSize)`. -/
theorem addBorder_spec (g : List (List Bool)) (B : Int) (hne : g ≠ [])
    (hsq : IsSquare g) (hB : 0 < B) (hfit : (g.length : Int) + 2 * B ≤ maxInt) :
    ∃ r, addBorder g B = some r ∧
      shape r = List.replicate (g.length + B.toNat * 2) (g.length + B.toNat * 2) ∧
      ∀ i j, i < g.length + B.toNat * 2 → j < g.length + B.toNat * 2 →
        index2 r i j =
          if B.toNat ≤ i ∧ i < B.toNat + g.length ∧ B.toNat ≤ j ∧ j < B.toNat + g.length then
            index2 g (i - B.toNat) (j - B.toNat)
          else some false := by
  have hlen : 0 < g.length := List.length_pos.mpr hne
  unfold maxInt at hfit
  obtain ⟨out, hfold, hshape, hcell⟩ :=
    gridLoop_spec (fun y x => index2 g y x) (fun y x => (index2 g y x).getD false)
      B.toNat B.toNat g.length g.length (makeGrid (g.length + B.toNat * 2))
      (by
        intro y x hy hx
        obtain ⟨b, hb⟩ := index2_square g hsq y x hy hx
        simp [hb])
      (by
        intro y x hy hx
        have h0 : y + B.toNat < g.length + B.toNat * 2 ∧
            x + B.toNat < g.length + B.toNat * 2 := by omega
        rw [index2_makeGrid, if_pos h0]
        rfl)
  refine ⟨out, ?_, ?_, ?_⟩
  · unfold addBorder
    have h1 : ¬ (B ≤ 0 ∨ g.length = 0) := by omega
    rw [if_neg h1]
    simp only
    have hw1 : wrapInt (B * 2) = B * 2 := wrapInt_eq _ (by omega) (by omega)
    have hw2 : wrapInt ((g.length : Int) + B * 2) = (g.length : Int) + B * 2 :=
      wrapInt_eq _ (by omega) (by omega)
    rw [hw1, hw2, if_neg (by omega)]
    have hsize : ((g.length : Int) + B * 2).toNat = g.length + B.toNat * 2 := by omega
    rw [hsize, ← hfold]
    apply foldlM_congr_mem
    intro acc y hy
    apply foldlM_congr_mem
    intro acc2 x hx
    have hy2 : y < g.length := List.mem_range.mp hy
    have hx2 : x < g.length := List.mem_range.mp hx
    have hwy : wrapInt ((y : Int) + B) = (y : Int) + B := wrapInt_eq _ (by omega) (by omega)
    have hwx : wrapInt ((x : Int) + B) = (x : Int) + B := wrapInt_eq _ (by omega) (by omega)
    have hyn : ((y : Int) + B).toNat = y + B.toNat := by omega
    have hxn : ((x : Int) + B).toNat = x + B.toNat := by omega
    have hfun : assignInt acc2 (wrapInt ((y : Int) + B)) (wrapInt ((x : Int) + B)) =
        assign2 acc2 (y + B.toNat) (x + B.toNat) := by
      funext v
      unfold assignInt
      rw [hwy, hwx, if_neg (by omega), hyn, hxn]
    rw [hfun]
  · rw [hshape, shape_makeGrid]
  · intro i j hi hj
    rw [hcell]
    by_cases h4 : B.toNat ≤ i ∧ i < B.toNat + g.length ∧ B.toNat ≤ j ∧ j < B.toNat + g.length
    · rw [if_pos h4, if_pos h4]
      obtain ⟨b, hb⟩ := index2_square g hsq (i - B.toNat) (j - B.toNat)
        (by omega) (by omega)
      simp [hb]
    · have h3 : i < g.length + B.toNat * 2 ∧ j < g.length + B.toNat * 2 := ⟨hi, hj⟩
      rw [if_neg h4, if_neg h4, index2_makeGrid, if_pos h3]

/-- For a positive `targetSize` the result of `scaleMatrix` on a non-empty square grid
is a `targetSize × targetSize` grid, also when the size does not change. -/
theorem scaleMatrix_shape (g : List (List Bool)) (t : Int) (hne : g ≠ [])
    (hsq : IsSquare g) (ht : 0 < t) :
    ∃ r, scaleMatrix g t = some r ∧ shape r = List.replicate t.toNat t.toNat := by
  by_cases hneq : t = (g.length : Int)
  · refine ⟨g, ?_, ?_⟩
    · unfold scaleMatrix
      have h1 : ¬ (t ≤ 0 ∨ g.length = 0) := by
        have := List.length_pos.mpr hne
        omega
      rw [if_neg h1]
      simp [hneq]
    · have h2 : t.toNat = g.length := by omega
      rw [h2]
      exact shape_of_square g hsq
  · obtain ⟨r, hr, hshape, _⟩ := scaleMatrix_spec g t hne hsq ht hneq
    exact ⟨r, hr, hshape⟩

theorem renderLine_fold_length (isTTY : Bool) (row : List Bool) :
    ∀ init : String,
      (row.foldl (fun line module =>
        if module then
          if isTTY then line ++ fullBlock else line ++ "██"
        else
          if isTTY then line ++ emptyBlock else line ++ "  ") init).length =
        init.length + 2 * row.length := by
  induction row with
  | nil => intro init; simp
  | cons b row ih =>
    intro init
    rw [List.foldl_cons, ih]
    have hf : fullBlock.length = 2 := by decide
    have he : emptyBlock.length = 2 := by decide
    have hf2 : "██".length = 2 := by decide
    have he2 : "  ".length = 2 := by decide
    cases b <;> cases isTTY <;>
      simp [String.length_append, hf, he, hf2, he2] <;> omega

theorem renderLine_length (isTTY : Bool) (row : List Bool) :
    (renderLine isTTY row).length = 2 * row.length := by
  unfold renderLine
  rw [renderLine_fold_length]
  simp

theorem join_cons (a : String) (l : List String) :
    String.join (a :: l) = a ++ String.join l := by
  have hgen : ∀ (l : List String) (init : String),
      List.foldl (fun r s => r ++ s) init l =
        init ++ List.foldl (fun r s => r ++ s) "" l := by
    intro l
    induction l with
    | nil => intro init; simp
    | cons b l ih =>
      intro init
      rw [List.foldl_cons, List.foldl_cons, ih (init ++ b), ih ("" ++ b)]
      simp [String.append_assoc]
  unfold String.join
  rw [List.foldl_cons, hgen l ("" ++ a)]
  simp

/-- On a square grid `scaleMatrix` returns, whatever the target size, and the result
is square. -/
theorem scaleMatrix_square (g : List (List Bool)) (t : Int) (hsq : IsSquare g) :
    ∃ r, scaleMatrix g t = some r ∧ IsSquare r := by
  by_cases h : t ≤ 0 ∨ g.length = 0
  · refine ⟨g, ?_, hsq⟩
    unfold scaleMatrix
    rw [if_pos h]
  · have hne : g ≠ [] := by
      intro hc
      apply h
      right
      rw [hc]
      rfl
    obtain ⟨r, hr, hshape⟩ := scaleMatrix_shape g t hne hsq (by omega)
    exact ⟨r, hr, square_of_shape r _ hshape⟩

/-- On a square grid `addBorder` returns, and the result is square, for a border
that is not positive and for one whose new size `originalSize + 2 * borderSize` is an
`int`. -/
theorem addBorder_square (g : List (List Bool)) (b : Int) (hsq : IsSquare g)
    (hfit : b ≤ 0 ∨ (g.length : Int) + 2 * b ≤ maxInt) :
    ∃ r, addBorder g b = some r ∧ IsSquare r := by
  by_cases h : b ≤ 0 ∨ g.length = 0
  · refine ⟨g, ?_, hsq⟩
    unfold addBorder
    rw [if_pos h]
  · have hne : g ≠ [] := by
      intro hc
      apply h
      right
      rw [hc]
      rfl
    have hfit2 : (g.length : Int) + 2 * b ≤ maxInt := by
      rcases hfit with h1 | h1
      · exact absurd (Or.inl h1) h
      · exact h1
    obtain ⟨r, hr, hshape, _⟩ := addBorder_spec g b hne hsq (by omega) hfit2
    exact ⟨r, hr, square_of_shape r _ hshape⟩

/-- At the largest `int` the border arithmetic wraps: on the 4 × 4 light grid
`borderSize * 2` is `-2`, the new size is 2, and the first write, at index
`0 + borderSize`, is out of range. -/
theorem addBorder_maxInt_panics : addBorder (makeGrid 4) maxInt = none := by
  decide

/-! ## binary64: what the rounding guarantees -/

theorem log2Fuel_spec : ∀ (fuel n : Nat), 0 < n → n ≤ fuel →
    2 ^ F64.log2Fuel fuel n ≤ n ∧ n < 2 ^ (F64.log2Fuel fuel n + 1) := by
  intro fuel
  induction fuel with
  | zero => intro n h1 h2; omega
  | succ fuel ih =>
    intro n hpos hle
    unfold F64.log2Fuel
    by_cases h2 : n < 2
    · rw [if_pos h2]
      have : n = 1 := by omega
      subst this
      decide
    · rw [if_neg h2]
      obtain ⟨h3, h4⟩ := ih (n / 2) (by omega) (by omega)
      rw [pow_succ, pow_succ]
      rw [pow_succ] at h4
      constructor <;> omega

theorem log2_spec (n : Nat) (h : 0 < n) :
    2 ^ F64.log2 n ≤ n ∧ n < 2 ^ (F64.log2 n + 1) :=
  log2Fuel_spec n n h (le_refl n)

theorem roundDiv_eq (a b : Nat) (ha : a ≠ 0) :
    F64.roundDiv a b =
      ⟨F64.nearestEven (F64.scaleNum a (F64.quotExp a b)) (F64.scaleDen b (F64.quotExp a b)),
        F64.quotExp a b⟩ := by
  unfold F64.roundDiv F64.nearestEven F64.quotExp F64.scaleNum F64.scaleDen
  rw [if_neg ha]
  simp only
  split_ifs <;> rfl

theorem scale_ratio (a b : Nat) (hb : 0 < b) (e : Int) :
    0 < F64.scaleDen b e ∧
      ((F64.scaleNum a e : ℕ) : ℚ) / ((F64.scaleDen b e : ℕ) : ℚ) =
        (a : ℚ) / (b : ℚ) / (2 : ℚ) ^ e := by
  unfold F64.scaleNum F64.scaleDen
  have hbq : (b : ℚ) ≠ 0 := by positivity
  by_cases he : e < 0
  · rw [if_pos he, if_pos he]
    refine ⟨hb, ?_⟩
    have h2 : (2 : ℚ) ^ e = ((2 : ℚ) ^ (-e).toNat)⁻¹ := by
      rw [← zpow_natCast, Int.toNat_of_nonneg (by omega), zpow_neg, inv_inv]
    rw [h2]
    push_cast
    field_simp
  · rw [if_neg he, if_neg he]
    refine ⟨by positivity, ?_⟩
    have h2 : (2 : ℚ) ^ e = (2 : ℚ) ^ e.toNat := by
      rw [← zpow_natCast, Int.toNat_of_nonneg (by omega)]
    rw [h2]
    push_cast
    field_simp

theorem nearestEven_spec (num den : Nat) (hden : 0 < den) :
    |((F64.nearestEven num den : ℕ) : ℚ) - (num : ℚ) / (den : ℚ)| ≤ 1 / 2 ∧
      ∀ k : ℕ, (num : ℚ) / (den : ℚ) = (k : ℚ) → F64.nearestEven num den = k := by
  have hdq : (0 : ℚ) < (den : ℚ) := by exact_mod_cast hden
  have hsplit : (num : ℚ) = (den : ℚ) * ((num / den : ℕ) : ℚ) + ((num % den : ℕ) : ℚ) := by
    exact_mod_cast (Nat.div_add_mod num den).symm
  have hr : num % den < den := Nat.mod_lt _ hden
  have hX : (num : ℚ) / (den : ℚ) =
      ((num / den : ℕ) : ℚ) + ((num % den : ℕ) : ℚ) / (den : ℚ) := by
    rw [hsplit]
    field_simp
    ring
  have hexact : ∀ k : ℕ, (num : ℚ) / (den : ℚ) = (k : ℚ) → num % den = 0 ∧ num / den = k := by
    intro k hk
    have h1 : (num : ℚ) = (k : ℚ) * (den : ℚ) := by
      field_simp at hk
      exact hk
    have h2 : num = k * den := by exact_mod_cast h1
    subst h2
    exact ⟨Nat.mul_mod_left k den, Nat.mul_div_cancel k hden⟩
  unfold F64.nearestEven
  split_ifs with h1 h2 h3
  · constructor
    · rw [hX, abs_le]
      have h1q : 2 * ((num % den : ℕ) : ℚ) < (den : ℚ) := by exact_mod_cast h1
      have h0 : (0 : ℚ) ≤ ((num % den : ℕ) : ℚ) / (den : ℚ) := by positivity
      have h5 : ((num % den : ℕ) : ℚ) / (den : ℚ) < 1 / 2 := by
        rw [div_lt_iff₀ hdq]
        linarith
      constructor <;> linarith
    · intro k hk
      exact (hexact k hk).2
  · constructor
    · rw [hX, abs_le]
      have h2q : (den : ℚ) < 2 * ((num % den : ℕ) : ℚ) := by exact_mod_cast h2
      have hrq : ((num % den : ℕ) : ℚ) < (den : ℚ) := by exact_mod_cast hr
      have h5 : 1 / 2 < ((num % den : ℕ) : ℚ) / (den : ℚ) := by
        rw [lt_div_iff₀ hdq]
        linarith
      have h6 : ((num % den : ℕ) : ℚ) / (den : ℚ) < 1 := by
        rw [div_lt_iff₀ hdq]
        linarith
      push_cast
      constructor <;> linarith
    · intro k hk
      have := (hexact k hk).1
      omega
  · constructor
    · rw [hX, abs_le]
      have h4 : 2 * (num % den) = den := by omega
      have h4q : 2 * ((num % den : ℕ) : ℚ) = (den : ℚ) := by exact_mod_cast h4
      have h5 : ((num % den : ℕ) : ℚ) / (den : ℚ) = 1 / 2 := by
        rw [div_eq_iff (ne_of_gt hdq)]
        linarith
      rw [h5]
      constructor <;> linarith
    · intro k hk
      have := (hexact k hk).1
      omega
  · constructor
    · rw [hX, abs_le]
      have h4 : 2 * (num % den) = den := by omega
      have h4q : 2 * ((num % den : ℕ) : ℚ) = (den : ℚ) := by exact_mod_cast h4
      have h5 : ((num % den : ℕ) : ℚ) / (den : ℚ) = 1 / 2 := by
        rw [div_eq_iff (ne_of_gt hdq)]
        linarith
      rw [h5]
      push_cast
      constructor <;> linarith
    · intro k hk
      have := (hexact k hk).1
      omega

theorem roundDiv_rounds (a b : Nat) (ha : 0 < a) (hb : 0 < b) :
    Rounds (F64.roundDiv a b).val ((a : ℚ) / (b : ℚ)) := by
  obtain ⟨hla1, hla2⟩ := log2_spec a ha
  obtain ⟨hlb1, hlb2⟩ := log2_spec b hb
  have haq : (0 : ℚ) < (a : ℚ) := by exact_mod_cast ha
  have hbq : (0 : ℚ) < (b : ℚ) := by exact_mod_cast hb
  have hA1 : (2 : ℚ) ^ F64.log2 a ≤ (a : ℚ) := by exact_mod_cast hla1
  have hA2 : (a : ℚ) < 2 * (2 : ℚ) ^ F64.log2 a := by
    have : (a : ℚ) < (2 : ℚ) ^ (F64.log2 a + 1) := by exact_mod_cast hla2
    rw [pow_succ] at this
    linarith
  have hB1 : (2 : ℚ) ^ F64.log2 b ≤ (b : ℚ) := by exact_mod_cast hlb1
  have hB2 : (b : ℚ) < 2 * (2 : ℚ) ^ F64.log2 b := by
    have : (b : ℚ) < (2 : ℚ) ^ (F64.log2 b + 1) := by exact_mod_cast hlb2
    rw [pow_succ] at this
    linarith
  have hAp : (0 : ℚ) < (2 : ℚ) ^ F64.log2 a := by positivity
  have hBp : (0 : ℚ) < (2 : ℚ) ^ F64.log2 b := by positivity
  -- the first exponent and the quotient scaled by it
  have hP : (2 : ℚ) ^ ((F64.log2 a : Int) - (F64.log2 b : Int) - 52) =
      (2 : ℚ) ^ F64.log2 a / (2 : ℚ) ^ F64.log2 b / (2 : ℚ) ^ 52 := by
    rw [zpow_sub₀ (by norm_num), zpow_sub₀ (by norm_num), zpow_natCast, zpow_natCast]
    norm_num
  have hX1 : (a : ℚ) / (b : ℚ) / (2 : ℚ) ^ ((F64.log2 a : Int) - (F64.log2 b : Int) - 52) =
      (a : ℚ) * (2 : ℚ) ^ F64.log2 b * (2 : ℚ) ^ 52 / ((b : ℚ) * (2 : ℚ) ^ F64.log2 a) := by
    rw [hP]
    field_simp
    ring
  have hup : (a : ℚ) * (2 : ℚ) ^ F64.log2 b * (2 : ℚ) ^ 52 / ((b : ℚ) * (2 : ℚ) ^ F64.log2 a)
      < (2 : ℚ) ^ 53 := by
    rw [div_lt_iff₀ (by positivity)]
    have h1 : (a : ℚ) * (2 : ℚ) ^ F64.log2 b < 2 * (2 : ℚ) ^ F64.log2 a * (b : ℚ) := by
      calc (a : ℚ) * (2 : ℚ) ^ F64.log2 b ≤ (a : ℚ) * (b : ℚ) :=
            mul_le_mul_of_nonneg_left hB1 (le_of_lt haq)
        _ < 2 * (2 : ℚ) ^ F64.log2 a * (b : ℚ) := mul_lt_mul_of_pos_right hA2 hbq
    nlinarith
  have hlo : (2 : ℚ) ^ 51 <
      (a : ℚ) * (2 : ℚ) ^ F64.log2 b * (2 : ℚ) ^ 52 / ((b : ℚ) * (2 : ℚ) ^ F64.log2 a) := by
    rw [lt_div_iff₀ (by positivity)]
    have h1 : (b : ℚ) * (2 : ℚ) ^ F64.log2 a < 2 * ((a : ℚ) * (2 : ℚ) ^ F64.log2 b) := by
      calc (b : ℚ) * (2 : ℚ) ^ F64.log2 a ≤ (b : ℚ) * (a : ℚ) :=
            mul_le_mul_of_nonneg_left hA1 (le_of_lt hbq)
        _ < 2 * (2 : ℚ) ^ F64.log2 b * (a : ℚ) := mul_lt_mul_of_pos_right hB2 haq
        _ = 2 * ((a : ℚ) * (2 : ℚ) ^ F64.log2 b) := by ring
    nlinarith
  -- the exponent that is selected
  have hsel : (2 : ℚ) ^ 52 ≤ (a : ℚ) / (b : ℚ) / (2 : ℚ) ^ F64.quotExp a b ∧
      (a : ℚ) / (b : ℚ) / (2 : ℚ) ^ F64.quotExp a b < (2 : ℚ) ^ 53 := by
    obtain ⟨hden1, hratio1⟩ :=
      scale_ratio a b hb ((F64.log2 a : Int) - (F64.log2 b : Int) - 52)
    have hden1q : (0 : ℚ) <
        ((F64.scaleDen b ((F64.log2 a : Int) - (F64.log2 b : Int) - 52) : ℕ) : ℚ) := by
      exact_mod_cast hden1
    unfold F64.quotExp
    split_ifs with hc
    · have hc2 := (Nat.div_lt_iff_lt_mul hden1).mp hc
      have hc3 : ((F64.scaleNum a ((F64.log2 a : Int) - (F64.log2 b : Int) - 52) : ℕ) : ℚ) <
          (2 : ℚ) ^ 52 *
            ((F64.scaleDen b ((F64.log2 a : Int) - (F64.log2 b : Int) - 52) : ℕ) : ℚ) := by
        exact_mod_cast hc2
      have hc4 : (a : ℚ) / (b : ℚ) /
          (2 : ℚ) ^ ((F64.log2 a : Int) - (F64.log2 b : Int) - 52) < (2 : ℚ) ^ 52 := by
        rw [← hratio1, div_lt_iff₀ hden1q]
        exact hc3
      have hstep : (a : ℚ) / (b : ℚ) /
          (2 : ℚ) ^ ((F64.log2 a : Int) - (F64.log2 b : Int) - 52 - 1) =
          2 * ((a : ℚ) / (b : ℚ) /
            (2 : ℚ) ^ ((F64.log2 a : Int) - (F64.log2 b : Int) - 52)) := by
        rw [zpow_sub₀ (by norm_num : (2 : ℚ) ≠ 0) _ 1]
        have hpos : (0 : ℚ) < (2 : ℚ) ^ ((F64.log2 a : Int) - (F64.log2 b : Int) - 52) := by
          positivity
        field_simp
        ring
      rw [hstep]
      rw [hX1] at hc4 ⊢
      constructor
      · linarith
      · linarith
    · have hc2 : ¬ (F64.scaleNum a ((F64.log2 a : Int) - (F64.log2 b : Int) - 52) <
          2 ^ 52 * F64.scaleDen b ((F64.log2 a : Int) - (F64.log2 b : Int) - 52)) :=
        fun h => hc ((Nat.div_lt_iff_lt_mul hden1).mpr h)
      have hc3 : (2 : ℚ) ^ 52 *
            ((F64.scaleDen b ((F64.log2 a : Int) - (F64.log2 b : Int) - 52) : ℕ) : ℚ) ≤
          ((F64.scaleNum a ((F64.log2 a : Int) - (F64.log2 b : Int) - 52) : ℕ) : ℚ) := by
        exact_mod_cast not_lt.mp hc2
      constructor
      · rw [← hratio1, le_div_iff₀ hden1q]
        exact hc3
      · rw [hX1]
        exact hup
  obtain ⟨hden, hratio⟩ := scale_ratio a b hb (F64.quotExp a b)
  obtain ⟨herr, hexact⟩ :=
    nearestEven_spec (F64.scaleNum a (F64.quotExp a b)) (F64.scaleDen b (F64.quotExp a b)) hden
  rw [hratio] at herr hexact
  refine ⟨F64.quotExp a b,
    F64.nearestEven (F64.scaleNum a (F64.quotExp a b)) (F64.scaleDen b (F64.quotExp a b)),
    ?_, hsel.1, hsel.2, herr, hexact⟩
  rw [roundDiv_eq a b (by omega)]
  rfl

theorem rounds_err (v w : ℚ) (h : Rounds v w) :
    0 < w ∧ 0 < v ∧ |v - w| ≤ w / (2 : ℚ) ^ 53 := by
  obtain ⟨e, m, hv, hlo, _, herr, _⟩ := h
  have hp : (0 : ℚ) < (2 : ℚ) ^ e := by positivity
  have hw : w = w / (2 : ℚ) ^ e * (2 : ℚ) ^ e := by field_simp
  have hX : (0 : ℚ) < w / (2 : ℚ) ^ e := lt_of_lt_of_le (by positivity) hlo
  have hwpos : 0 < w := by
    rw [hw]
    positivity
  obtain ⟨h1, h2⟩ := abs_le.mp herr
  refine ⟨hwpos, ?_, ?_⟩
  · rw [hv]
    have : (0 : ℚ) < (m : ℚ) := by
      have : (2 : ℚ) ^ 52 - 1 / 2 ≤ (m : ℚ) := by linarith
      have h3 : (0 : ℚ) < (2 : ℚ) ^ 52 - 1 / 2 := by norm_num
      linarith
    positivity
  · have hdiff : v - w = ((m : ℚ) - w / (2 : ℚ) ^ e) * (2 : ℚ) ^ e := by
      rw [hv]
      field_simp
    rw [hdiff, abs_mul, abs_of_pos hp]
    have h3 : w / (2 : ℚ) ^ 53 = w / (2 : ℚ) ^ e / (2 : ℚ) ^ 53 * (2 : ℚ) ^ e := by
      field_simp
      ring
    rw [h3]
    apply mul_le_mul_of_nonneg_right _ (le_of_lt hp)
    have h4 : (1 : ℚ) / 2 ≤ w / (2 : ℚ) ^ e / (2 : ℚ) ^ 53 := by
      rw [le_div_iff₀ (by positivity)]
      have : (1 : ℚ) / 2 * (2 : ℚ) ^ 53 = (2 : ℚ) ^ 52 := by norm_num
      rw [this]
      exact hlo
    linarith

theorem rounds_exact (v w : ℚ) (h : Rounds v w) (c : ℕ) (z : ℤ)
    (hw : w = (c : ℚ) * (2 : ℚ) ^ z) (hc : c < 2 ^ 53) : v = w := by
  obtain ⟨e, m, hv, hlo, _, _, hexact⟩ := h
  have hp : (0 : ℚ) < (2 : ℚ) ^ e := by positivity
  have hX : w / (2 : ℚ) ^ e = (c : ℚ) * (2 : ℚ) ^ (z - e) := by
    rw [hw, zpow_sub₀ (by norm_num : (2 : ℚ) ≠ 0)]
    field_simp
  have hcq : (c : ℚ) < (2 : ℚ) ^ 53 := by exact_mod_cast hc
  have hc0 : (0 : ℚ) ≤ (c : ℚ) := by positivity
  have hze : 0 ≤ z - e := by
    by_contra hneg
    have h1 : (2 : ℚ) ^ (z - e) ≤ (2 : ℚ) ^ (-1 : ℤ) :=
      zpow_le_zpow_right₀ (by norm_num) (by omega)
    have h2 : (2 : ℚ) ^ (-1 : ℤ) = 1 / 2 := by norm_num
    rw [h2] at h1
    have h3 : (c : ℚ) * (2 : ℚ) ^ (z - e) ≤ (c : ℚ) * (1 / 2) :=
      mul_le_mul_of_nonneg_left h1 hc0
    rw [hX] at hlo
    have h4 : (2 : ℚ) ^ 53 * (1 / 2) = (2 : ℚ) ^ 52 := by norm_num
    linarith
  have hnat : w / (2 : ℚ) ^ e = ((c * 2 ^ (z - e).toNat : ℕ) : ℚ) := by
    rw [hX]
    push_cast
    rw [← zpow_natCast, Int.toNat_of_nonneg hze]
  have hm := hexact _ hnat
  rw [hv, hm, ← hnat]
  field_simp

theorem val_pos_iff (x : F64) : 0 < x.val ↔ 0 < x.mant := by
  unfold F64.val
  have hp : (0 : ℚ) < (2 : ℚ) ^ x.exp := by positivity
  constructor
  · intro h
    have : (0 : ℚ) < (x.mant : ℚ) := by
      by_contra hc
      have h0 : (x.mant : ℚ) = 0 := le_antisymm (not_lt.mp hc) (by positivity)
      rw [h0] at h
      simp at h
    exact_mod_cast this
  · intro h
    have : (0 : ℚ) < (x.mant : ℚ) := by exact_mod_cast h
    positivity

theorem div_rounds (x y : F64) (hx : 0 < x.mant) (hy : 0 < y.mant) :
    Rounds (F64.div x y).val (x.val / y.val) := by
  obtain ⟨e, m, hv, hlo, hhi, herr, hexact⟩ := roundDiv_rounds x.mant y.mant hx hy
  have hxq : (0 : ℚ) < (x.mant : ℚ) := by exact_mod_cast hx
  have hyq : (0 : ℚ) < (y.mant : ℚ) := by exact_mod_cast hy
  have hval : (F64.roundDiv x.mant y.mant).val =
      ((F64.roundDiv x.mant y.mant).mant : ℚ) * (2 : ℚ) ^ (F64.roundDiv x.mant y.mant).exp :=
    rfl
  have hdiv : (F64.div x y).val =
      ((F64.roundDiv x.mant y.mant).mant : ℚ) *
        (2 : ℚ) ^ ((F64.roundDiv x.mant y.mant).exp + x.exp - y.exp) := rfl
  have hratio : x.val / y.val / (2 : ℚ) ^ (e + x.exp - y.exp) =
      (x.mant : ℚ) / (y.mant : ℚ) / (2 : ℚ) ^ e := by
    unfold F64.val
    rw [zpow_sub₀ (by norm_num : (2 : ℚ) ≠ 0), zpow_add₀ (by norm_num : (2 : ℚ) ≠ 0)]
    have h1 : (0 : ℚ) < (2 : ℚ) ^ x.exp := by positivity
    have h2 : (0 : ℚ) < (2 : ℚ) ^ y.exp := by positivity
    have h3 : (0 : ℚ) < (2 : ℚ) ^ e := by positivity
    field_simp
    ring
  have hscale : (F64.div x y).val =
      (F64.roundDiv x.mant y.mant).val * (2 : ℚ) ^ (x.exp - y.exp) := by
    rw [hdiv, hval, mul_assoc, ← zpow_add₀ (by norm_num : (2 : ℚ) ≠ 0)]
    congr 2
    ring
  refine ⟨e + x.exp - y.exp, m, ?_, ?_, ?_, ?_, ?_⟩
  · rw [hscale, hv, mul_assoc, ← zpow_add₀ (by norm_num : (2 : ℚ) ≠ 0)]
    congr 2
    ring
  · rw [hratio]; exact hlo
  · rw [hratio]; exact hhi
  · rw [hratio]; exact herr
  · rw [hratio]; exact hexact

theorem toNat_eq_floor (x : F64) : x.toNat = ⌊x.val⌋₊ := by
  unfold F64.toNat F64.val
  by_cases he : x.exp < 0
  · rw [if_pos he]
    have h2 : (2 : ℚ) ^ x.exp = (((2 ^ (-x.exp).toNat : ℕ) : ℚ))⁻¹ := by
      push_cast
      rw [← zpow_natCast, Int.toNat_of_nonneg (by omega), zpow_neg, inv_inv]
    rw [h2, ← div_eq_mul_inv, Nat.floor_div_eq_div]
  · rw [if_neg he]
    have h2 : (x.mant : ℚ) * (2 : ℚ) ^ x.exp = ((x.mant * 2 ^ x.exp.toNat : ℕ) : ℚ) := by
      push_cast
      rw [← zpow_natCast, Int.toNat_of_nonneg (by omega)]
    rw [h2, Nat.floor_natCast]

theorem val_ofNat (n : Nat) (hn : n < 2 ^ 53) : (F64.ofNat n).val = (n : ℚ) := by
  by_cases h0 : n = 0
  · subst h0
    simp [F64.ofNat, F64.roundDiv, F64.val]
  · have h := roundDiv_rounds n 1 (by omega) (by decide)
    have h1 : ((n : ℚ) / ((1 : ℕ) : ℚ)) = (n : ℚ) * (2 : ℚ) ^ (0 : ℤ) := by simp
    have := rounds_exact _ _ h n 0 h1 hn
    rw [show F64.ofNat n = F64.roundDiv n 1 from rfl, this]
    simp

theorem mant_ofNat_pos (n : Nat) (h0 : 0 < n) : 0 < (F64.ofNat n).mant := by
  have h := roundDiv_rounds n 1 h0 (by decide)
  exact (val_pos_iff _).mp (rounds_err _ _ h).2.1

theorem origCoord_zero (scale : F64) (n : Nat) (hn : 0 < n) : origCoord scale n 0 = 0 := by
  have h : (F64.div (F64.ofNat 0) scale).toNat = 0 := by
    simp [F64.div, F64.ofNat, F64.roundDiv, F64.toNat]
  unfold origCoord
  simp only [h]
  rw [if_neg (by omega)]

theorem origCoord_of_floor (scale : F64) (n y c : Nat) (hc : c < n)
    (h : ⌊(F64.div (F64.ofNat y) scale).val⌋₊ = c) : origCoord scale n y = c := by
  unfold origCoord
  simp only [toNat_eq_floor, h]
  rw [if_neg (by omega)]

/-- Enlarging by a whole factor `k`: the binary64 scale is `k` itself and the source
coordinate of `y` is `y / k`. -/
theorem origCoord_whole (n k y : Nat) (hn : 0 < n) (hk : 0 < k) (hy : y < k * n)
    (hfit : k * n < 2 ^ 53) :
    origCoord (F64.div (F64.ofNat (k * n)) (F64.ofNat n)) n y = y / k := by
  have hn53 : n < 2 ^ 53 := lt_of_le_of_lt (Nat.le_mul_of_pos_left n hk) hfit
  have hk53 : k < 2 ^ 53 := lt_of_le_of_lt (Nat.le_mul_of_pos_right k hn) hfit
  have ht0 : 0 < k * n := Nat.mul_pos hk hn
  have hnq : (0 : ℚ) < (n : ℚ) := by exact_mod_cast hn
  have hkq : (0 : ℚ) < (k : ℚ) := by exact_mod_cast hk
  have hS := div_rounds (F64.ofNat (k * n)) (F64.ofNat n) (mant_ofNat_pos _ ht0)
    (mant_ofNat_pos _ hn)
  rw [val_ofNat _ hfit, val_ofNat _ hn53] at hS
  have hSval : (F64.div (F64.ofNat (k * n)) (F64.ofNat n)).val = (k : ℚ) := by
    have h1 : ((k * n : ℕ) : ℚ) / (n : ℚ) = (k : ℚ) * (2 : ℚ) ^ (0 : ℤ) := by
      push_cast
      field_simp
    rw [rounds_exact _ _ hS k 0 h1 hk53, h1]
    simp
  have hSm : 0 < (F64.div (F64.ofNat (k * n)) (F64.ofNat n)).mant := by
    rw [← val_pos_iff, hSval]
    exact hkq
  have hcn : y / k < n := (Nat.div_lt_iff_lt_mul hk).mpr (by rw [Nat.mul_comm]; exact hy)
  by_cases hy0 : y = 0
  · subst hy0
    rw [origCoord_zero _ _ hn]
    simp
  · have hypos : 0 < y := Nat.pos_of_ne_zero hy0
    have hy53 : y < 2 ^ 53 := lt_trans hy hfit
    have hyq : (0 : ℚ) < (y : ℚ) := by exact_mod_cast hypos
    have hQ := div_rounds (F64.ofNat y) (F64.div (F64.ofNat (k * n)) (F64.ofNat n))
      (mant_ofNat_pos _ hypos) hSm
    rw [val_ofNat _ hy53, hSval] at hQ
    apply origCoord_of_floor _ _ _ _ hcn
    have hsplit : (y : ℚ) = (k : ℚ) * ((y / k : ℕ) : ℚ) + ((y % k : ℕ) : ℚ) := by
      exact_mod_cast (Nat.div_add_mod y k).symm
    have hW : (y : ℚ) / (k : ℚ) = ((y / k : ℕ) : ℚ) + ((y % k : ℕ) : ℚ) / (k : ℚ) := by
      rw [hsplit]
      field_simp
      ring
    by_cases hr : y % k = 0
    · have h1 : (y : ℚ) / (k : ℚ) = ((y / k : ℕ) : ℚ) * (2 : ℚ) ^ (0 : ℤ) := by
        rw [hW, hr]
        simp
      have hc53 : y / k < 2 ^ 53 := lt_of_le_of_lt (Nat.div_le_self y k) hy53
      rw [rounds_exact _ _ hQ (y / k) 0 h1 hc53, h1]
      simp
    · obtain ⟨_, hQpos, herr⟩ := rounds_err _ _ hQ
      obtain ⟨he1, he2⟩ := abs_le.mp herr
      have hrlt : y % k < k := Nat.mod_lt _ hk
      have hr1 : (1 : ℚ) ≤ ((y % k : ℕ) : ℚ) := by
        exact_mod_cast Nat.pos_of_ne_zero hr
      have hr2 : ((y % k : ℕ) : ℚ) + 1 ≤ (k : ℚ) := by exact_mod_cast hrlt
      have hfrac1 : (1 : ℚ) / (k : ℚ) ≤ ((y % k : ℕ) : ℚ) / (k : ℚ) :=
        div_le_div_of_nonneg_right hr1 (le_of_lt hkq)
      have hfrac2 : ((y % k : ℕ) : ℚ) / (k : ℚ) ≤ 1 - 1 / (k : ℚ) := by
        rw [div_le_iff₀ hkq]
        field_simp
        linarith
      have hsmall : (y : ℚ) / (k : ℚ) / (2 : ℚ) ^ 53 < 1 / (k : ℚ) := by
        rw [div_div, div_lt_div_iff₀ (by positivity) hkq]
        have : (y : ℚ) < (2 : ℚ) ^ 53 := by exact_mod_cast hy53
        nlinarith
      rw [Nat.floor_eq_iff (le_of_lt hQpos)]
      constructor <;> linarith

/-- The bound of `origCoord_whole` is needed in this model: for `n = 2` and
`k = 2 ^ 53 + 1` the size `k * n` is not a binary64 value, the scale becomes `2 ^ 53`,
and `y = 2 ^ 53` is mapped to 1 although `y / k = 0`.  A grid of that size cannot be
allocated. -/
theorem origCoord_whole_bound :
    origCoord (F64.div (F64.ofNat ((2 ^ 53 + 1) * 2)) (F64.ofNat 2)) 2 (2 ^ 53) = 1 ∧
    2 ^ 53 / (2 ^ 53 + 1) = 0 := by
  constructor
  · set_option maxRecDepth 100000 in decide
  · decide

/-- The binary64 quotient `y / scale`, for `scale` the binary64 quotient `t / n`, is
within `1 / t` of the exact `y * n / t`. -/
theorem quotient_near (n t y : Nat) (hn : 0 < n) (hy0 : 0 < y) (hy : y < t)
    (hfit : t * n ≤ 2 ^ 51) :
    0 < (F64.div (F64.ofNat y) (F64.div (F64.ofNat t) (F64.ofNat n))).val ∧
    |(F64.div (F64.ofNat y) (F64.div (F64.ofNat t) (F64.ofNat n))).val -
        ((y * n : ℕ) : ℚ) / (t : ℚ)| < 1 / (t : ℚ) := by
  have ht0 : 0 < t := by omega
  have ht51 : t ≤ 2 ^ 51 := le_trans (Nat.le_mul_of_pos_right t hn) hfit
  have hn51 : n ≤ 2 ^ 51 := le_trans (Nat.le_mul_of_pos_left n ht0) hfit
  have hnq : (0 : ℚ) < (n : ℚ) := by exact_mod_cast hn
  have htq : (0 : ℚ) < (t : ℚ) := by exact_mod_cast ht0
  have hyq : (0 : ℚ) < (y : ℚ) := by exact_mod_cast hy0
  have hS := div_rounds (F64.ofNat t) (F64.ofNat n) (mant_ofNat_pos _ ht0)
    (mant_ofNat_pos _ hn)
  rw [val_ofNat _ (by omega), val_ofNat _ (by omega)] at hS
  obtain ⟨hW1pos, hSpos, hSerr⟩ := rounds_err _ _ hS
  have hSm : 0 < (F64.div (F64.ofNat t) (F64.ofNat n)).mant := (val_pos_iff _).mp hSpos
  have hQ := div_rounds (F64.ofNat y) (F64.div (F64.ofNat t) (F64.ofNat n))
    (mant_ofNat_pos _ hy0) hSm
  rw [val_ofNat _ (by omega)] at hQ
  obtain ⟨hW2pos, hQpos, hQerr⟩ := rounds_err _ _ hQ
  refine ⟨hQpos, ?_⟩
  -- abbreviations
  generalize (F64.div (F64.ofNat y) (F64.div (F64.ofNat t) (F64.ofNat n))).val = Q at *
  generalize (F64.div (F64.ofNat t) (F64.ofNat n)).val = S at *
  obtain ⟨hS1, hS2⟩ := abs_le.mp hSerr
  obtain ⟨hQ1, hQ2⟩ := abs_le.mp hQerr
  have hD : ((2 : ℚ) ^ 53) = 9007199254740992 := by norm_num
  rw [hD] at hS1 hS2 hQ1 hQ2
  have hX : ((y * n : ℕ) : ℚ) / (t : ℚ) = (y : ℚ) * (n : ℚ) / (t : ℚ) := by push_cast; ring
  rw [hX]
  have hyn : (y : ℚ) * (n : ℚ) ≤ 2251799813685248 := by
    have h1 : y * n ≤ t * n := Nat.mul_le_mul_right n (le_of_lt hy)
    have h2 : y * n ≤ 2 ^ 51 := le_trans h1 hfit
    have h3 : ((y * n : ℕ) : ℚ) ≤ ((2 ^ 51 : ℕ) : ℚ) := by exact_mod_cast h2
    push_cast at h3
    exact h3
  -- the scale against the exact ratio
  have hSlo : (t : ℚ) / (n : ℚ) * (9007199254740991 / 9007199254740992) ≤ S := by linarith
  have hShi : S ≤ (t : ℚ) / (n : ℚ) * (9007199254740993 / 9007199254740992) := by linarith
  -- the quotient `y / S` against the exact `y * n / t`
  have hW2hi : (y : ℚ) / S ≤
      (y : ℚ) * (n : ℚ) / (t : ℚ) * (9007199254740992 / 9007199254740991) := by
    rw [div_le_iff₀ hSpos]
    have h1 : (y : ℚ) * (n : ℚ) / (t : ℚ) * (9007199254740992 / 9007199254740991) *
        ((t : ℚ) / (n : ℚ) * (9007199254740991 / 9007199254740992)) = (y : ℚ) := by
      field_simp
      ring
    have h2 : (0 : ℚ) ≤
        (y : ℚ) * (n : ℚ) / (t : ℚ) * (9007199254740992 / 9007199254740991) := by
      positivity
    calc (y : ℚ) = (y : ℚ) * (n : ℚ) / (t : ℚ) * (9007199254740992 / 9007199254740991) *
          ((t : ℚ) / (n : ℚ) * (9007199254740991 / 9007199254740992)) := h1.symm
      _ ≤ (y : ℚ) * (n : ℚ) / (t : ℚ) * (9007199254740992 / 9007199254740991) * S :=
          mul_le_mul_of_nonneg_left hSlo h2
  have hW2lo : (y : ℚ) * (n : ℚ) / (t : ℚ) * (9007199254740992 / 9007199254740993) ≤
      (y : ℚ) / S := by
    rw [le_div_iff₀ hSpos]
    have h1 : (y : ℚ) * (n : ℚ) / (t : ℚ) * (9007199254740992 / 9007199254740993) *
        ((t : ℚ) / (n : ℚ) * (9007199254740993 / 9007199254740992)) = (y : ℚ) := by
      field_simp
      ring
    have h2 : (0 : ℚ) ≤
        (y : ℚ) * (n : ℚ) / (t : ℚ) * (9007199254740992 / 9007199254740993) := by
      positivity
    calc (y : ℚ) * (n : ℚ) / (t : ℚ) * (9007199254740992 / 9007199254740993) * S
        ≤ (y : ℚ) * (n : ℚ) / (t : ℚ) * (9007199254740992 / 9007199254740993) *
          ((t : ℚ) / (n : ℚ) * (9007199254740993 / 9007199254740992)) :=
          mul_le_mul_of_nonneg_left hShi h2
      _ = (y : ℚ) := h1
  -- the exact quotient times `t` is small against `2 ^ 53`
  have hXt : (y : ℚ) * (n : ℚ) / (t : ℚ) ≤ 2251799813685248 * (1 / (t : ℚ)) := by
    rw [div_le_iff₀ htq]
    field_simp
    exact hyn
  have hinv : (0 : ℚ) < 1 / (t : ℚ) := by positivity
  have hXnn : (0 : ℚ) ≤ (y : ℚ) * (n : ℚ) / (t : ℚ) := by positivity
  rw [abs_lt]
  constructor <;> linarith

/-- The source coordinate that the code computes is the exact `y * n / t`, or one
below it when `y * n / t` is a whole number. -/
theorem origCoord_near (n t y : Nat) (hn : 0 < n) (hy : y < t) (hfit : t * n ≤ 2 ^ 51) :
    origCoord (F64.div (F64.ofNat t) (F64.ofNat n)) n y = y * n / t ∨
    (t ∣ y * n ∧ origCoord (F64.div (F64.ofNat t) (F64.ofNat n)) n y + 1 = y * n / t) := by
  have ht0 : 0 < t := by omega
  have htq : (0 : ℚ) < (t : ℚ) := by exact_mod_cast ht0
  have hcn : y * n / t < n :=
    (Nat.div_lt_iff_lt_mul ht0).mpr (Nat.mul_lt_mul_of_pos_right hy hn |>.trans_eq
      (Nat.mul_comm t n))
  by_cases hy0 : y = 0
  · subst hy0
    left
    rw [origCoord_zero _ _ hn]
    simp
  · obtain ⟨hQpos, hnear⟩ := quotient_near n t y hn (Nat.pos_of_ne_zero hy0) hy hfit
    obtain ⟨hlo, hhi⟩ := abs_lt.mp hnear
    have hsplit : ((y * n : ℕ) : ℚ) =
        (t : ℚ) * ((y * n / t : ℕ) : ℚ) + ((y * n % t : ℕ) : ℚ) := by
      exact_mod_cast (Nat.div_add_mod (y * n) t).symm
    have hX : ((y * n : ℕ) : ℚ) / (t : ℚ) =
        ((y * n / t : ℕ) : ℚ) + ((y * n % t : ℕ) : ℚ) / (t : ℚ) := by
      rw [hsplit]
      field_simp
      ring
    have ht1 : (1 : ℚ) / (t : ℚ) ≤ 1 := by
      rw [div_le_iff₀ htq]
      have : (1 : ℚ) ≤ (t : ℚ) := by exact_mod_cast ht0
      linarith
    by_cases hr : y * n % t = 0
    · have hdvd : t ∣ y * n := Nat.dvd_of_mod_eq_zero hr
      rw [hX, hr] at hlo hhi
      simp only [Nat.cast_zero, zero_div, add_zero] at hlo hhi
      by_cases hge : ((y * n / t : ℕ) : ℚ) ≤
          (F64.div (F64.ofNat y) (F64.div (F64.ofNat t) (F64.ofNat n))).val
      · left
        apply origCoord_of_floor _ _ _ _ hcn
        rw [Nat.floor_eq_iff (le_of_lt hQpos)]
        constructor <;> linarith
      · right
        refine ⟨hdvd, ?_⟩
        have hc1 : 1 ≤ y * n / t := by
          by_contra hc
          have h0 : y * n / t = 0 := Nat.eq_zero_of_not_pos hc
          rw [h0] at hge
          apply hge
          simpa using le_of_lt hQpos
        have hfl : ⌊(F64.div (F64.ofNat y) (F64.div (F64.ofNat t) (F64.ofNat n))).val⌋₊ =
            y * n / t - 1 := by
          rw [Nat.floor_eq_iff (le_of_lt hQpos)]
          have hcast : ((y * n / t - 1 : ℕ) : ℚ) = ((y * n / t : ℕ) : ℚ) - 1 := by
            rw [Nat.cast_sub hc1]
            simp
          rw [hcast]
          constructor <;> linarith
        have hlt : y * n / t - 1 < n := Nat.lt_of_le_of_lt (Nat.sub_le _ _) hcn
        rw [origCoord_of_floor _ n y (y * n / t - 1) hlt hfl]
        exact Nat.sub_add_cancel hc1
    · left
      apply origCoord_of_floor _ _ _ _ hcn
      have hrlt : y * n % t < t := Nat.mod_lt _ ht0
      have hr1 : (1 : ℚ) ≤ ((y * n % t : ℕ) : ℚ) := by
        exact_mod_cast Nat.pos_of_ne_zero hr
      have hr2 : ((y * n % t : ℕ) : ℚ) + 1 ≤ (t : ℚ) := by exact_mod_cast hrlt
      have hfrac1 : (1 : ℚ) / (t : ℚ) ≤ ((y * n % t : ℕ) : ℚ) / (t : ℚ) :=
        div_le_div_of_nonneg_right hr1 (le_of_lt htq)
      have hfrac2 : ((y * n % t : ℕ) : ℚ) / (t : ℚ) ≤ 1 - 1 / (t : ℚ) := by
        rw [div_le_iff₀ htq]
        field_simp
        linarith
      rw [Nat.floor_eq_iff (le_of_lt hQpos)]
      constructor <;> linarith

/-! ## counting the output rows of a source row -/

theorem ceil_div_lt_iff (a n y : Nat) (hn : 0 < n) : y < (a + n - 1) / n ↔ y * n < a := by
  rw [Nat.lt_iff_add_one_le, Nat.le_div_iff_mul_le hn]
  have : (y + 1) * n = y * n + n := by ring
  rw [this]
  omega

/-- The number of `y < t` with `y * n / t < i` is the ceiling of `i * t / n`. -/
theorem card_exact_below (n t i : Nat) (hn : 0 < n) (ht : 0 < t) (hi : i ≤ n) :
    ((Finset.range t).filter (fun y => y * n / t < i)).card = (i * t + n - 1) / n := by
  have hle : (i * t + n - 1) / n ≤ t := by
    by_contra hc
    have h1 : t < (i * t + n - 1) / n := by omega
    rw [ceil_div_lt_iff _ _ _ hn] at h1
    have h2 : i * t ≤ n * t := Nat.mul_le_mul_right t hi
    have h3 : t * n = n * t := Nat.mul_comm t n
    omega
  have hset : (Finset.range t).filter (fun y => y * n / t < i) =
      Finset.range ((i * t + n - 1) / n) := by
    ext y
    simp only [Finset.mem_filter, Finset.mem_range]
    rw [ceil_div_lt_iff _ _ _ hn, Nat.div_lt_iff_lt_mul ht]
    constructor
    · intro h; exact h.2
    · intro h
      refine ⟨?_, h⟩
      by_contra hc
      have h1 : t ≤ y := by omega
      have h2 : t * n ≤ y * n := Nat.mul_le_mul_right n h1
      have h3 : i * t ≤ n * t := Nat.mul_le_mul_right t hi
      have h4 : t * n = n * t := Nat.mul_comm t n
      omega
  rw [hset, Finset.card_range]

/-- At most one `y` has `y * n / t = i` with `y * n` a multiple of `t`. -/
theorem card_deficient (f : Nat → Nat) (n t i : Nat) (hn : 0 < n) :
    ((Finset.range t).filter (fun y => y * n / t = i ∧ t ∣ y * n ∧ f y + 1 = i)).card ≤ 1 ∧
    (1 ≤ ((Finset.range t).filter
        (fun y => y * n / t = i ∧ t ∣ y * n ∧ f y + 1 = i)).card →
      ∃ y, y < t ∧ y * n = i * t ∧ f y + 1 = y * n / t) := by
  constructor
  · apply Finset.card_le_one.mpr
    intro a ha b hb
    simp only [Finset.mem_filter, Finset.mem_range] at ha hb
    have h1 : a * n = i * t := by
      rw [← ha.2.1, Nat.div_mul_cancel ha.2.2.1]
    have h2 : b * n = i * t := by
      rw [← hb.2.1, Nat.div_mul_cancel hb.2.2.1]
    exact Nat.eq_of_mul_eq_mul_right hn (h1.trans h2.symm)
  · intro h
    obtain ⟨y, hy⟩ := Finset.card_pos.mp (Nat.lt_of_lt_of_le Nat.zero_lt_one h)
    simp only [Finset.mem_filter, Finset.mem_range] at hy
    refine ⟨y, hy.1, ?_, ?_⟩
    · rw [← hy.2.1, Nat.div_mul_cancel hy.2.2.1]
    · rw [hy.2.1]; exact hy.2.2.2

/-- The number of `y < t` with `f y < i`, for a map `f` that is the exact quotient or
one below it at whole quotients. -/
theorem card_below (f : Nat → Nat) (n t i : Nat) (hn : 0 < n) (ht : 0 < t) (hi : i ≤ n)
    (hf : ∀ y, y < t → f y = y * n / t ∨ (t ∣ y * n ∧ f y + 1 = y * n / t)) :
    ((Finset.range t).filter (fun y => f y < i)).card =
      (i * t + n - 1) / n +
      ((Finset.range t).filter (fun y => y * n / t = i ∧ t ∣ y * n ∧ f y + 1 = i)).card := by
  rw [← card_exact_below n t i hn ht hi, ← Finset.card_union_of_disjoint]
  · congr 1
    ext y
    simp only [Finset.mem_filter, Finset.mem_range, Finset.mem_union]
    constructor
    · intro h
      obtain ⟨hy, hlt⟩ := h
      rcases hf y hy with h1 | ⟨h1, h2⟩
      · left
        exact ⟨hy, by rw [← h1]; exact hlt⟩
      · by_cases h3 : y * n / t < i
        · left; exact ⟨hy, h3⟩
        · right
          refine ⟨hy, ?_, h1, ?_⟩
          · rw [← h2] at h3 ⊢
            omega
          · rw [← h2] at h3
            omega
    · intro h
      rcases h with ⟨hy, hlt⟩ | ⟨hy, h1, _, h3⟩
      · refine ⟨hy, ?_⟩
        rcases hf y hy with h1 | ⟨_, h2⟩
        · rw [h1]; exact hlt
        · rw [← h2] at hlt
          omega
      · exact ⟨hy, by omega⟩
  · rw [Finset.disjoint_left]
    intro y h1 h2
    simp only [Finset.mem_filter, Finset.mem_range] at h1 h2
    have := h1.2
    rw [h2.2.1] at this
    omega

/-- The number of `y < t` with `f y = i` is the difference of two such counts. -/
theorem card_eq_sub (f : Nat → Nat) (t i : Nat) :
    ((Finset.range t).filter (fun y => f y = i)).card +
      ((Finset.range t).filter (fun y => f y < i)).card =
      ((Finset.range t).filter (fun y => f y < i + 1)).card := by
  rw [← Finset.card_union_of_disjoint]
  · congr 1
    ext y
    simp only [Finset.mem_filter, Finset.mem_range, Finset.mem_union]
    constructor
    · intro h
      rcases h with ⟨hy, h1⟩ | ⟨hy, h1⟩
      · exact ⟨hy, by omega⟩
      · exact ⟨hy, by omega⟩
    · intro h
      obtain ⟨hy, h1⟩ := h
      by_cases h2 : f y = i
      · left; exact ⟨hy, h2⟩
      · right; exact ⟨hy, by omega⟩
  · rw [Finset.disjoint_left]
    intro y h1 h2
    simp only [Finset.mem_filter, Finset.mem_range] at h1 h2
    omega

theorem ceil_small (n x : Nat) (hn : 0 < n) (hx : x < 2 * n) :
    (x + n - 1) / n = if x = 0 then 0 else if x ≤ n then 1 else 2 := by
  split_ifs with h1 h2
  · subst h1
    exact Nat.div_eq_of_lt (by omega)
  · exact Nat.div_eq_of_lt_le (by omega) (by omega)
  · exact Nat.div_eq_of_lt_le (by omega) (by omega)

theorem ceil_decomp (n q s : Nat) (hn : 0 < n) :
    (n * q + s + n - 1) / n = q + (s + n - 1) / n := by
  have h : n * q + s + n - 1 = (s + n - 1) + n * q := by omega
  rw [h, Nat.add_mul_div_left _ _ hn]
  omega

/-- How the ceiling of `a / n` moves when `t` is added to `a`. -/
theorem ceil_steps (n a t : Nat) (hn : 0 < n) :
    (a + n - 1) / n + t / n ≤ (a + t + n - 1) / n ∧
    (a + t + n - 1) / n ≤ (a + n - 1) / n + (t + n - 1) / n ∧
    (n ∣ a → (a + t + n - 1) / n = (a + n - 1) / n + (t + n - 1) / n) ∧
    (n ∣ a + t → ¬ n ∣ t → (a + t + n - 1) / n = (a + n - 1) / n + t / n) ∧
    (n ∣ t → (t + n - 1) / n = t / n) ∧
    (¬ n ∣ t → (t + n - 1) / n = t / n + 1) := by
  have hs : a % n < n := Nat.mod_lt _ hn
  have hr : t % n < n := Nat.mod_lt _ hn
  have ha : n * (a / n) + a % n = a := Nat.div_add_mod a n
  have ht : n * (t / n) + t % n = t := Nat.div_add_mod t n
  have h1 : (a + n - 1) / n = a / n + (a % n + n - 1) / n := by
    conv_lhs => rw [← ha]
    exact ceil_decomp n (a / n) (a % n) hn
  have h2 : (t + n - 1) / n = t / n + (t % n + n - 1) / n := by
    conv_lhs => rw [← ht]
    exact ceil_decomp n (t / n) (t % n) hn
  have h3 : (a + t + n - 1) / n = a / n + t / n + (a % n + t % n + n - 1) / n := by
    have h : a + t + n - 1 = n * (a / n + t / n) + (a % n + t % n) + n - 1 := by
      rw [Nat.mul_add]
      omega
    rw [h, ceil_decomp n _ _ hn]
  have hda : n ∣ a ↔ a % n = 0 := Nat.dvd_iff_mod_eq_zero
  have hdt : n ∣ t ↔ t % n = 0 := Nat.dvd_iff_mod_eq_zero
  have hdat : n ∣ a + t → a % n + t % n = 0 ∨ a % n + t % n = n := by
    intro h
    have h4 : (a + t) % n = 0 := Nat.dvd_iff_mod_eq_zero.mp h
    rw [Nat.add_mod] at h4
    by_cases h5 : a % n + t % n < n
    · rw [Nat.mod_eq_of_lt h5] at h4
      left; exact h4
    · right
      have h6 : (a % n + t % n) % n = a % n + t % n - n := by
        rw [Nat.mod_eq_sub_mod (by omega), Nat.mod_eq_of_lt (by omega)]
      rw [h6] at h4
      omega
  rw [h1, h2, h3, ceil_small n (a % n) hn (by omega), ceil_small n (t % n) hn (by omega),
    ceil_small n (a % n + t % n) hn (by omega), hda, hdt]
  refine ⟨?_, ?_, ?_, ?_, ?_, ?_⟩
  · split_ifs <;> omega
  · split_ifs <;> omega
  · intro h
    split_ifs <;> omega
  · intro h hnt
    have := hdat h
    split_ifs <;> omega
  · intro h
    split_ifs
    omega
  · intro h
    split_ifs <;> omega

/-- A coordinate map that is the exact quotient `y * n / t`, or one below it at whole
quotients, and exact when `n` divides `t`, sends `floor (t / n)` or `ceil (t / n)` of
the `y < t` to each `i < n`. -/
theorem count_near_uniform (f : Nat → Nat) (n t : Nat) (hn : 0 < n) (ht : 0 < t)
    (hf : ∀ y, y < t → f y = y * n / t ∨ (t ∣ y * n ∧ f y + 1 = y * n / t))
    (hdiv : n ∣ t → ∀ y, y < t → f y = y * n / t) (i : Nat) (hi : i < n) :
    t / n ≤ ((Finset.range t).filter (fun y => f y = i)).card ∧
    ((Finset.range t).filter (fun y => f y = i)).card ≤ (t + n - 1) / n := by
  have hC0 := card_below f n t i hn ht (le_of_lt hi) hf
  have hC1 := card_below f n t (i + 1) hn ht hi hf
  have hsum := card_eq_sub f t i
  obtain ⟨hD0, hD0w⟩ := card_deficient f n t i hn
  obtain ⟨hD1, hD1w⟩ := card_deficient f n t (i + 1) hn
  have hexp : (i + 1) * t = i * t + t := by ring
  rw [hexp] at hC1
  obtain ⟨hE1, hE2, hE3, hE4, hE5, hE6⟩ := ceil_steps n (i * t) t hn
  have hP0 : 1 ≤ ((Finset.range t).filter
      (fun y => y * n / t = i ∧ t ∣ y * n ∧ f y + 1 = i)).card → n ∣ i * t ∧ ¬ n ∣ t := by
    intro h
    obtain ⟨y, hy, hyn, hfy⟩ := hD0w h
    refine ⟨⟨y, by rw [← hyn, Nat.mul_comm]⟩, ?_⟩
    intro hd
    have := hdiv hd y hy
    omega
  have hP1 : 1 ≤ ((Finset.range t).filter
      (fun y => y * n / t = i + 1 ∧ t ∣ y * n ∧ f y + 1 = i + 1)).card →
      n ∣ i * t + t ∧ ¬ n ∣ t := by
    intro h
    obtain ⟨y, hy, hyn, hfy⟩ := hD1w h
    refine ⟨⟨y, by rw [← hexp, ← hyn, Nat.mul_comm]⟩, ?_⟩
    intro hd
    have := hdiv hd y hy
    omega
  by_cases hd : n ∣ t
  · have h0 : ((Finset.range t).filter
        (fun y => y * n / t = i ∧ t ∣ y * n ∧ f y + 1 = i)).card = 0 := by
      by_contra hc
      exact (hP0 (by omega)).2 hd
    have h1 : ((Finset.range t).filter
        (fun y => y * n / t = i + 1 ∧ t ∣ y * n ∧ f y + 1 = i + 1)).card = 0 := by
      by_contra hc
      exact (hP1 (by omega)).2 hd
    have := hE5 hd
    omega
  · have hce := hE6 hd
    by_cases h0 : 1 ≤ ((Finset.range t).filter
        (fun y => y * n / t = i ∧ t ∣ y * n ∧ f y + 1 = i)).card
    · have hdi := (hP0 h0).1
      have h1 : ((Finset.range t).filter
          (fun y => y * n / t = i + 1 ∧ t ∣ y * n ∧ f y + 1 = i + 1)).card = 0 := by
        by_contra hc
        have hdi1 := (hP1 (by omega)).1
        exact hd ((Nat.dvd_add_right hdi).mp hdi1)
      have := hE3 hdi
      omega
    · by_cases h1 : 1 ≤ ((Finset.range t).filter
          (fun y => y * n / t = i + 1 ∧ t ∣ y * n ∧ f y + 1 = i + 1)).card
      · have := hE4 (hP1 h1).1 hd
        omega
      · omega

theorem stripe_length (n k : Nat) : (stripe n k).length = n := by
  simp [stripe]

theorem stripe_square (n k : Nat) : IsSquare (stripe n k) := by
  intro row hrow
  rw [stripe_length]
  unfold stripe at hrow
  obtain ⟨i, _, rfl⟩ := List.mem_map.mp hrow
  simp

theorem index2_stripe (n k i j : Nat) (hi : i < n) (hj : j < n) :
    index2 (stripe n k) i j = some (decide (i = k)) := by
  simp [index2, stripe, List.getElem?_map, List.getElem?_range hi, List.getElem?_replicate, hj]

/-- The value `int(float64(y) / scale)` before the clamp is already below `n`. -/
theorem unclamped_lt (n t y : Nat) (hn : 0 < n) (hy : y < t) (hfit : t * n ≤ 2 ^ 51) :
    (F64.div (F64.ofNat y) (F64.div (F64.ofNat t) (F64.ofNat n))).toNat < n := by
  by_cases hy0 : y = 0
  · subst hy0
    have h : (F64.div (F64.ofNat 0) (F64.div (F64.ofNat t) (F64.ofNat n))).toNat = 0 := by
      simp [F64.div, F64.ofNat, F64.roundDiv, F64.toNat]
    rw [h]
    exact hn
  · have ht0 : 0 < t := by omega
    have htq : (0 : ℚ) < (t : ℚ) := by exact_mod_cast ht0
    obtain ⟨hQpos, hnear⟩ := quotient_near n t y hn (Nat.pos_of_ne_zero hy0) hy hfit
    obtain ⟨_, hhi⟩ := abs_lt.mp hnear
    have hX : ((y * n : ℕ) : ℚ) / (t : ℚ) ≤ (n : ℚ) - 1 / (t : ℚ) := by
      rw [div_le_iff₀ htq]
      have h1 : y + 1 ≤ t := hy
      have h2 : ((y : ℚ) + 1) ≤ (t : ℚ) := by exact_mod_cast h1
      have h3 : (1 : ℚ) ≤ (n : ℚ) := by exact_mod_cast hn
      have h4 : ((n : ℚ) - 1 / (t : ℚ)) * (t : ℚ) = (n : ℚ) * (t : ℚ) - 1 := by
        field_simp
      rw [h4]
      push_cast
      nlinarith
    rw [toNat_eq_floor, Nat.floor_lt (le_of_lt hQpos)]
    linarith

/-- The bound of `unclamped_lt` is needed in this model: for `n = 1`, `t = 2 ^ 54` and
`y = t - 1` the conversion `float64(y)` rounds up to `2 ^ 54` and the quotient is 1,
which the clamp lowers to 0.  A grid of that size cannot be allocated. -/
theorem unclamped_bound :
    (F64.div (F64.ofNat (2 ^ 54 - 1)) (F64.div (F64.ofNat (2 ^ 54)) (F64.ofNat 1))).toNat
      = 1 := by
  set_option maxRecDepth 100000 in decide

/-- On a square grid `scaleMatrix` returns a square grid whose size is the size of the
input or the target size. -/
theorem scaleMatrix_length (g : List (List Bool)) (t : Int) (hsq : IsSquare g) :
    ∃ r, scaleMatrix g t = some r ∧ IsSquare r ∧
      (r.length = g.length ∨ (0 < t ∧ (r.length : Int) = t)) := by
  by_cases h : t ≤ 0 ∨ g.length = 0
  · refine ⟨g, ?_, hsq, Or.inl rfl⟩
    unfold scaleMatrix
    rw [if_pos h]
  · have hne : g ≠ [] := by
      intro hc
      apply h
      right
      rw [hc]
      rfl
    obtain ⟨r, hr, hshape⟩ := scaleMatrix_shape g t hne hsq (by omega)
    obtain ⟨hlen, _⟩ := length_of_shape r _ hshape
    refine ⟨r, hr, square_of_shape r _ hshape, Or.inr ⟨by omega, ?_⟩⟩
    rw [hlen]
    omega

/-! ## the claims -/

/-- C1, at a failing input: scaling the 21 × 21 grid `stripe21` to 49 (size scale 7).
The exact quotient maps output row 35 to source row `35 / (49 / 21) = 15`, which is
dark.  The code computes `scale = 49 / 21` in binary64, `2.3333333333333335`, which
lies above 7/3; `35 / scale` is then `14.999999999999998`, `int` truncates it to 14,
and the cell `(35, 0)` of the result is copied from the light row 14. -/
theorem scaleMatrix_float_off_by_one :
    exactCoord 49 21 35 = 15 ∧
    index2 stripe21 (exactCoord 49 21 35) 0 = some true ∧
    F64.div (F64.ofNat 49) (F64.ofNat 21) = ⟨5254199565265579, -51⟩ ∧
    F64.div (F64.ofNat 35) ⟨5254199565265579, -51⟩ = ⟨8444249301319679, -49⟩ ∧
    origCoord (F64.div (F64.ofNat 49) (F64.ofNat 21)) 21 35 = 14 ∧
    ∃ r, scaleMatrix stripe21 49 = some r ∧ index2 r 35 0 = some false := by
  have hex : exactCoord 49 21 35 = 15 := by
    unfold exactCoord
    norm_num
  have hscale : F64.div (F64.ofNat 49) (F64.ofNat 21) = ⟨5254199565265579, -51⟩ := by
    set_option maxRecDepth 100000 in decide
  have hquot : F64.div (F64.ofNat 35) ⟨5254199565265579, -51⟩ =
      ⟨8444249301319679, -49⟩ := by
    set_option maxRecDepth 100000 in decide
  have hco : origCoord (F64.div (F64.ofNat 49) (F64.ofNat 21)) 21 35 = 14 := by
    set_option maxRecDepth 100000 in decide
  have hco0 : origCoord (F64.div (F64.ofNat 49) (F64.ofNat 21)) 21 0 = 0 := by
    set_option maxRecDepth 100000 in decide
  refine ⟨hex, ?_, hscale, hquot, hco, ?_⟩
  · rw [hex]; decide
  · obtain ⟨r, hr, _, hcell⟩ :=
      scaleMatrix_spec stripe21 49 (by decide) (by decide) (by decide) (by decide)
    refine ⟨r, hr, ?_⟩
    have h := hcell 35 0 (by decide) (by decide)
    have hlen : stripe21.length = 21 := by decide
    have ht : (49 : Int).toNat = 49 := by decide
    rw [hlen, ht, hco, hco0] at h
    rw [h]; decide

/-- C2: `scaleMatrix` returns its input when `targetSize <= 0` or the grid has no
rows. -/
theorem scaleMatrix_identity (g : List (List Bool)) (t : Int)
    (h : t ≤ 0 ∨ g.length = 0) : scaleMatrix g t = some g := by
  unfold scaleMatrix
  rw [if_pos h]

theorem scaleMatrix_identity_witness :
    scaleMatrix [[true, false], [false, true]] 0 = some [[true, false], [false, true]] ∧
    scaleMatrix [] 5 = some [] :=
  ⟨scaleMatrix_identity [[true, false], [false, true]] 0 (Or.inl (by decide)),
   scaleMatrix_identity [] 5 (Or.inr rfl)⟩

/-- C3: scaling a grid to its own number of rows returns the grid. -/
theorem scaleMatrix_same_size (g : List (List Bool)) :
    scaleMatrix g (g.length : Int) = some g := by
  unfold scaleMatrix
  by_cases h : ((g.length : Int) ≤ 0 ∨ g.length = 0)
  · rw [if_pos h]
  · rw [if_neg h]
    simp

/-- C4: for a non-empty square grid and a positive `targetSize` other than its size,
`scaleMatrix` returns a grid of `targetSize` rows of `targetSize` cells each. -/
theorem scaleMatrix_dimensions (g : List (List Bool)) (t : Int) (hne : g ≠ [])
    (hsq : IsSquare g) (ht : 0 < t) (hneq : t ≠ (g.length : Int)) :
    ∃ r, scaleMatrix g t = some r ∧ (r.length : Int) = t ∧
      ∀ row ∈ r, (row.length : Int) = t := by
  obtain ⟨r, hr, hshape, _⟩ := scaleMatrix_spec g t hne hsq ht hneq
  obtain ⟨hlen, hrows⟩ := length_of_shape r t.toNat hshape
  refine ⟨r, hr, ?_, ?_⟩
  · rw [hlen]; omega
  · intro row hrow
    rw [hrows row hrow]; omega

theorem scaleMatrix_dimensions_witness :
    ∃ r, scaleMatrix [[true, false], [false, true]] 4 = some r ∧ (r.length : Int) = 4 ∧
      ∀ row ∈ r, (row.length : Int) = 4 :=
  scaleMatrix_dimensions [[true, false], [false, true]] 4 (by decide) (by decide)
    (by decide) (by decide)

/-- C5: for every `N >= 1`, scaling the 1 × 1 grid `[[true]]` to `N` gives the
`N × N` grid whose cells are all `true`. -/
theorem scaleMatrix_single_true (N : Nat) (hN : 1 ≤ N) :
    scaleMatrix [[true]] (N : Int) = some (List.replicate N (List.replicate N true)) := by
  by_cases h1 : N = 1
  · subst h1
    unfold scaleMatrix
    simp
  · obtain ⟨r, hr, hshape, hcell⟩ :=
      scaleMatrix_spec [[true]] (N : Int) (by simp) (by decide) (by omega)
        (by simp; omega)
    rw [hr]
    congr 1
    apply grid_ext
    · rw [hshape]
      simp [shape]
    · intro i j
      by_cases hij : i < N ∧ j < N
      · rw [hcell i j (by simpa using hij.1) (by simpa using hij.2)]
        have hy := origCoord_lt
          (F64.div (F64.ofNat (N : Int).toNat) (F64.ofNat [[true]].length)) [[true]].length i
          (by decide)
        have hx := origCoord_lt
          (F64.div (F64.ofNat (N : Int).toNat) (F64.ofNat [[true]].length)) [[true]].length j
          (by decide)
        have hy0 : origCoord
            (F64.div (F64.ofNat (N : Int).toNat) (F64.ofNat [[true]].length))
            [[true]].length i = 0 := by
          simpa using hy
        have hx0 : origCoord
            (F64.div (F64.ofNat (N : Int).toNat) (F64.ofNat [[true]].length))
            [[true]].length j = 0 := by
          simpa using hx
        rw [hy0, hx0]
        simp [index2, List.getElem?_replicate, hij.1, hij.2]
      · have hl := length_of_shape r N (by simpa using hshape)
        unfold index2
        by_cases hi : i < N
        · have hj : ¬ j < N := fun hc => hij ⟨hi, hc⟩
          have hri : i < r.length := by omega
          have hrow : (r[i]).length = N := hl.2 _ (List.getElem_mem hri)
          simp [List.getElem?_eq_getElem hri, List.getElem?_replicate, hi, hj]
          omega
        · simp [List.getElem?_replicate, hi]
          rw [List.getElem?_eq_none (by omega)]

theorem scaleMatrix_single_true_witness :
    scaleMatrix [[true]] 3 =
      some [[true, true, true], [true, true, true], [true, true, true]] :=
  scaleMatrix_single_true 3 (by decide)

/-- C6 as stated fails: the 4 × 4 light grid is non-empty and square and the largest
`int` is a positive border, but `addBorder` panics there (`borderSize * 2` wraps to
`-2`, the new grid is 2 × 2 and the first write is out of range), so there is no
result of `4 + 2B` rows. -/
theorem addBorder_dimensions_fails :
    makeGrid 4 ≠ [] ∧ IsSquare (makeGrid 4) ∧ 0 < maxInt ∧
    ¬ ∃ r, addBorder (makeGrid 4) maxInt = some r ∧
      (r.length : Int) = (makeGrid 4).length + 2 * maxInt ∧
      ∀ row ∈ r, (row.length : Int) = (makeGrid 4).length + 2 * maxInt := by
  refine ⟨by decide, by decide, by decide, ?_⟩
  rintro ⟨r, hr, _⟩
  rw [addBorder_maxInt_panics] at hr
  cases hr

/-- C6, amended: for a non-empty square grid of size `n` and `borderSize = B > 0` with
`n + 2B` at most the largest `int`, `addBorder` returns a grid of `n + 2B` rows of
`n + 2B` cells each. -/
theorem addBorder_dimensions (g : List (List Bool)) (B : Int) (hne : g ≠ [])
    (hsq : IsSquare g) (hB : 0 < B) (hfit : (g.length : Int) + 2 * B ≤ maxInt) :
    ∃ r, addBorder g B = some r ∧ (r.length : Int) = g.length + 2 * B ∧
      ∀ row ∈ r, (row.length : Int) = g.length + 2 * B := by
  obtain ⟨r, hr, hshape, _⟩ := addBorder_spec g B hne hsq hB hfit
  obtain ⟨hlen, hrows⟩ := length_of_shape r _ hshape
  refine ⟨r, hr, ?_, ?_⟩
  · rw [hlen]; push_cast; omega
  · intro row hrow
    rw [hrows row hrow]; push_cast; omega

theorem addBorder_dimensions_witness :
    ∃ r, addBorder [[true, false], [false, true]] 1 = some r ∧
      (r.length : Int) = ([[true, false], [false, true]].length : Int) + 2 * 1 ∧
      ∀ row ∈ r, (row.length : Int) = ([[true, false], [false, true]].length : Int) + 2 * 1 :=
  addBorder_dimensions [[true, false], [false, true]] 1 (by decide) (by decide) (by decide)
    (by decide)

/-- C7 as stated fails: on the 4 × 4 light grid with the largest `int` as border
`addBorder` panics, so there is no result whose cells could hold the centred copy. -/
theorem addBorder_centred_fails :
    makeGrid 4 ≠ [] ∧ IsSquare (makeGrid 4) ∧ 0 < maxInt ∧
    ¬ ∃ r, addBorder (makeGrid 4) maxInt = some r ∧
      ∀ i j : Nat, (i : Int) < (makeGrid 4).length + 2 * maxInt →
        (j : Int) < (makeGrid 4).length + 2 * maxInt →
        index2 r i j =
          if maxInt ≤ i ∧ (i : Int) < (makeGrid 4).length + maxInt ∧ maxInt ≤ j ∧
              (j : Int) < (makeGrid 4).length + maxInt then
            index2 (makeGrid 4) (i - maxInt.toNat) (j - maxInt.toNat)
          else some false := by
  refine ⟨by decide, by decide, by decide, ?_⟩
  rintro ⟨r, hr, _⟩
  rw [addBorder_maxInt_panics] at hr
  cases hr

/-- C7, amended: for a non-empty square grid `g` of size `n` and `borderSize = B > 0`
with `n + 2B` at most the largest `int`, the cell `(i, j)` of `addBorder g B` is
`g[i-B][j-B]` when `B <= i < n+B` and `B <= j < n+B`, and `false` for every other
`(i, j)` below `n + 2B`. -/
theorem addBorder_centred (g : List (List Bool)) (B : Int) (hne : g ≠ [])
    (hsq : IsSquare g) (hB : 0 < B) (hfit : (g.length : Int) + 2 * B ≤ maxInt) :
    ∃ r, addBorder g B = some r ∧
      ∀ i j : Nat, (i : Int) < g.length + 2 * B → (j : Int) < g.length + 2 * B →
        index2 r i j =
          if B ≤ i ∧ (i : Int) < g.length + B ∧ B ≤ j ∧ (j : Int) < g.length + B then
            index2 g (i - B.toNat) (j - B.toNat)
          else some false := by
  obtain ⟨r, hr, _, hcell⟩ := addBorder_spec g B hne hsq hB hfit
  refine ⟨r, hr, ?_⟩
  intro i j hi hj
  rw [hcell i j (by omega) (by omega)]
  by_cases h : B ≤ i ∧ (i : Int) < g.length + B ∧ B ≤ j ∧ (j : Int) < g.length + B
  · have h2 : B.toNat ≤ i ∧ i < B.toNat + g.length ∧ B.toNat ≤ j ∧ j < B.toNat + g.length := by
      omega
    rw [if_pos h, if_pos h2]
  · have h2 : ¬ (B.toNat ≤ i ∧ i < B.toNat + g.length ∧ B.toNat ≤ j ∧
        j < B.toNat + g.length) := by
      omega
    rw [if_neg h, if_neg h2]

theorem addBorder_centred_witness :
    ∃ r, addBorder [[true]] 2 = some r ∧
      ∀ i j : Nat, (i : Int) < ([[true]].length : Int) + 2 * 2 →
        (j : Int) < ([[true]].length : Int) + 2 * 2 →
        index2 r i j =
          if (2 : Int) ≤ i ∧ (i : Int) < ([[true]].length : Int) + 2 ∧ (2 : Int) ≤ j ∧
              (j : Int) < ([[true]].length : Int) + 2 then
            index2 [[true]] (i - (2 : Int).toNat) (j - (2 : Int).toNat)
          else some false :=
  addBorder_centred [[true]] 2 (by decide) (by decide) (by decide) (by decide)

/-- C8: `addBorder` returns its input when `borderSize <= 0` or the grid has no
rows. -/
theorem addBorder_identity (g : List (List Bool)) (B : Int)
    (h : B ≤ 0 ∨ g.length = 0) : addBorder g B = some g := by
  unfold addBorder
  rw [if_pos h]

theorem addBorder_identity_witness :
    addBorder [[true, false], [false, true]] 0 = some [[true, false], [false, true]] ∧
    addBorder [] 2 = some [] :=
  ⟨addBorder_identity [[true, false], [false, true]] 0 (Or.inl (by decide)),
   addBorder_identity [] 2 (Or.inr rfl)⟩

/-- C9: `convertSizeScale s` is `25 + 4 * (s - 1)` for `1 <= s <= 10` and 25 for every
other integer `s`. -/
theorem convertSizeScale_table (s : Int) :
    convertSizeScale s = some (if 1 ≤ s ∧ s ≤ 10 then 25 + 4 * (s - 1) else 25) := by
  unfold convertSizeScale
  by_cases h : 1 ≤ s ∧ s ≤ 10
  · have h1 : ¬ (s < 1 ∨ s > 10) := by omega
    rw [if_neg h1, if_pos h]
    obtain ⟨hlo, hhi⟩ := h
    interval_cases s <;> rfl
  · have h1 : s < 1 ∨ s > 10 := by omega
    rw [if_pos h1, if_neg h]

/-- C10 as stated fails: the 4 × 4 light grid is non-empty and square, 4 is a positive
target size and the largest `int` is a border that is not negative, but
`renderQRToTerminal` panics in `addBorder` and emits no line at all, not
`t + 2b` of them. -/
theorem renderQRToTerminal_lines_fails :
    makeGrid 4 ≠ [] ∧ IsSquare (makeGrid 4) ∧ (0 : Int) < 4 ∧ 0 ≤ maxInt ∧
    renderQRToTerminal (makeGrid 4) false 4 maxInt = none ∧
    ¬ ∃ lines, renderQRToTerminal (makeGrid 4) false 4 maxInt = some lines ∧
      (lines.length : Int) = 4 + 2 * maxInt ∧
      ∀ l ∈ lines, (l.length : Int) = 2 * (4 + 2 * maxInt) := by
  have hnone : renderQRToTerminal (makeGrid 4) false 4 maxInt = none := by
    have hs : scaleMatrix (makeGrid 4) 4 = some (makeGrid 4) := by decide
    unfold renderQRToTerminal
    rw [hs]
    simp only
    rw [if_pos (by decide), addBorder_maxInt_panics]
  refine ⟨by decide, by decide, by decide, by decide, hnone, ?_⟩
  rintro ⟨lines, hl, _⟩
  rw [hnone] at hl
  cases hl

/-- C10, amended: the lines `renderQRToTerminal` emits are the rows of
`addBorder (scaleMatrix g targetSize) border`, one line per row and in row order, and
a line has twice as many characters as its row has cells; so for a non-empty square
grid, `targetSize = t > 0` and `border = b >= 0` with `t + 2b` at most the largest
`int` there are `t + 2b` lines of `2 * (t + 2b)` characters each. -/
theorem renderQRToTerminal_lines (g : List (List Bool)) (isTTY : Bool) (t b : Int) :
    renderQRToTerminal g isTTY t b =
        ((scaleMatrix g t).bind fun scaled => addBorder scaled b).map
          (List.map (renderLine isTTY)) ∧
    (∀ row : List Bool, (renderLine isTTY row).length = 2 * row.length) ∧
    (g ≠ [] → IsSquare g → 0 < t → 0 ≤ b → t + 2 * b ≤ maxInt →
      ∃ lines, renderQRToTerminal g isTTY t b = some lines ∧
        (lines.length : Int) = t + 2 * b ∧
        ∀ l ∈ lines, (l.length : Int) = 2 * (t + 2 * b)) := by
  have hfirst : renderQRToTerminal g isTTY t b =
      ((scaleMatrix g t).bind fun scaled => addBorder scaled b).map
        (List.map (renderLine isTTY)) := by
    unfold renderQRToTerminal
    cases hs : scaleMatrix g t with
    | none => rfl
    | some scaled =>
      simp only [Option.some_bind]
      by_cases hb : b > 0
      · rw [if_pos hb]
        cases addBorder scaled b <;> rfl
      · have hskip : addBorder scaled b = some scaled := by
          unfold addBorder
          rw [if_pos (Or.inl (by omega))]
        rw [if_neg hb, hskip]
        rfl
  refine ⟨hfirst, renderLine_length isTTY, ?_⟩
  intro hne hsq ht hb hfit
  obtain ⟨scaled, hscaled, hshape⟩ := scaleMatrix_shape g t hne hsq ht
  obtain ⟨hlen, hrows⟩ := length_of_shape scaled _ hshape
  have hfinal : ∃ final, addBorder scaled b = some final ∧
      shape final = List.replicate (t + 2 * b).toNat (t + 2 * b).toNat := by
    by_cases hb0 : b = 0
    · have hskip : addBorder scaled b = some scaled := by
        unfold addBorder
        rw [if_pos (Or.inl (by omega))]
      refine ⟨scaled, hskip, ?_⟩
      rw [hshape, hb0]
      simp
    · have hne2 : scaled ≠ [] := by
        intro hc
        rw [hc] at hlen
        simp at hlen
        omega
      obtain ⟨final, hf, hfs, _⟩ :=
        addBorder_spec scaled b hne2 (square_of_shape scaled _ hshape) (by omega)
          (by rw [hlen]; omega)
      refine ⟨final, hf, ?_⟩
      rw [hfs, hlen]
      have : t.toNat + b.toNat * 2 = (t + 2 * b).toNat := by omega
      rw [this]
  obtain ⟨final, hf, hfs⟩ := hfinal
  obtain ⟨hflen, hfrows⟩ := length_of_shape final _ hfs
  refine ⟨final.map (renderLine isTTY), ?_, ?_, ?_⟩
  · rw [hfirst, hscaled]
    simp [hf]
  · rw [List.length_map, hflen]
    omega
  · intro l hl
    obtain ⟨row, hrow, rfl⟩ := List.mem_map.mp hl
    rw [renderLine_length, hfrows row hrow]
    push_cast
    omega

theorem renderQRToTerminal_lines_witness :
    ∃ lines, renderQRToTerminal [[true]] false 25 2 = some lines ∧
      (lines.length : Int) = 29 ∧ ∀ l ∈ lines, (l.length : Int) = 58 :=
  (renderQRToTerminal_lines [[true]] false 25 2).2.2 (by decide) (by decide) (by decide)
    (by decide) (by decide)

/-- C11: the lines do not depend on the interactive flag, and a line is the
concatenation of one glyph per cell, the filled block for `true` and two spaces for
`false`. -/
theorem renderQRToTerminal_flag_independent (g : List (List Bool)) (t b : Int) :
    renderQRToTerminal g true t b = renderQRToTerminal g false t b ∧
    ∀ (isTTY : Bool) (row : List Bool),
      renderLine isTTY row = String.join (row.map fun c => if c then "██" else "  ") := by
  have hline : ∀ (isTTY : Bool) (row : List Bool),
      renderLine isTTY row = String.join (row.map fun c => if c then "██" else "  ") := by
    intro isTTY row
    unfold renderLine
    have hgen : ∀ init : String,
        row.foldl (fun line module =>
          if module then
            if isTTY then line ++ fullBlock else line ++ "██"
          else
            if isTTY then line ++ emptyBlock else line ++ "  ") init =
          init ++ String.join (row.map fun c => if c then "██" else "  ") := by
      induction row with
      | nil => intro init; simp [String.join]
      | cons c row ih =>
        intro init
        rw [List.foldl_cons, ih, List.map_cons, join_cons]
        cases c <;> cases isTTY <;>
          simp [fullBlock, emptyBlock, String.append_assoc]
    rw [hgen]
    simp
  refine ⟨?_, hline⟩
  have hrows : ∀ row : List Bool, renderLine true row = renderLine false row := by
    intro row
    rw [hline true row, hline false row]
  unfold renderQRToTerminal
  cases scaleMatrix g t with
  | none => rfl
  | some scaled =>
    simp only
    cases (if b > 0 then addBorder scaled b else some scaled) with
    | none => rfl
    | some final =>
      simp only [Option.some.injEq]
      exact List.map_congr_left (fun row _ => hrows row)

/-- C12: `calculateOptimalSize` is 25 when standard output is not a terminal or the
size query fails; otherwise, with `candidate = min(width/2 - 4, height - 6)`, it is
`candidate` when `10 < candidate < 50` and 25 otherwise (the same value whether the
division truncates, as in Go, or rounds down); the result is positive and at most
100. -/
theorem calculateOptimalSize_spec (isTerminal : Bool) (termSize : Option (Int × Int)) :
    calculateOptimalSize false termSize = 25 ∧
    calculateOptimalSize isTerminal none = 25 ∧
    (∀ width height : Int,
      calculateOptimalSize true (some (width, height)) =
          (if 10 < QR.min (Int.tdiv width 2 - 4) (height - 6) ∧
              QR.min (Int.tdiv width 2 - 4) (height - 6) < 50 then
            QR.min (Int.tdiv width 2 - 4) (height - 6) else 25) ∧
      calculateOptimalSize true (some (width, height)) =
          (if 10 < Min.min (width / 2 - 4) (height - 6) ∧
              Min.min (width / 2 - 4) (height - 6) < 50 then
            Min.min (width / 2 - 4) (height - 6) else 25)) ∧
    0 < calculateOptimalSize isTerminal termSize ∧
    calculateOptimalSize isTerminal termSize ≤ 100 := by
  have hmin : ∀ a b : Int, QR.min a b = Min.min a b := by
    intro a b
    unfold QR.min
    split_ifs with h
    · exact (min_eq_left (le_of_lt h)).symm
    · exact (min_eq_right (not_lt.mp h)).symm
  have hform : ∀ width height : Int,
      calculateOptimalSize true (some (width, height)) =
        (if 10 < QR.min (Int.tdiv width 2 - 4) (height - 6) ∧
            QR.min (Int.tdiv width 2 - 4) (height - 6) < 50 then
          QR.min (Int.tdiv width 2 - 4) (height - 6) else 25) := by
    intro width height
    simp only [calculateOptimalSize, if_true, gt_iff_lt]
  refine ⟨by simp [calculateOptimalSize], ?_, ?_, ?_, ?_⟩
  · cases isTerminal <;> simp [calculateOptimalSize]
  · intro width height
    refine ⟨hform width height, ?_⟩
    rw [hform, hmin]
    by_cases hw : 0 ≤ width
    · rw [Int.tdiv_eq_ediv hw (by decide)]
    · have h1 : Int.tdiv width 2 - 4 < 0 := by
        have : Int.tdiv width 2 ≤ 0 := by
          have hneg : width = -(-width) := by omega
          rw [hneg, Int.neg_tdiv]
          have : 0 ≤ Int.tdiv (-width) 2 := Int.tdiv_nonneg (by omega) (by decide)
          omega
        omega
      have h2 : width / 2 - 4 < 0 := by omega
      have h3 : ¬ (10 < Min.min (Int.tdiv width 2 - 4) (height - 6) ∧
          Min.min (Int.tdiv width 2 - 4) (height - 6) < 50) := by
        intro hc
        have := min_le_left (Int.tdiv width 2 - 4) (height - 6)
        omega
      have h4 : ¬ (10 < Min.min (width / 2 - 4) (height - 6) ∧
          Min.min (width / 2 - 4) (height - 6) < 50) := by
        intro hc
        have := min_le_left (width / 2 - 4) (height - 6)
        omega
      rw [if_neg h3, if_neg h4]
  · cases isTerminal
    · simp [calculateOptimalSize]
    · cases termSize with
      | none => simp [calculateOptimalSize]
      | some p =>
        obtain ⟨width, height⟩ := p
        rw [hform]
        split_ifs with h
        · omega
        · decide
  · cases isTerminal
    · simp [calculateOptimalSize]
    · cases termSize with
      | none => simp [calculateOptimalSize]
      | some p =>
        obtain ⟨width, height⟩ := p
        rw [hform]
        split_ifs with h
        · omega
        · decide

/-- C13: when the text of the configuration is empty, `main` ends with exit status 1
and nothing on standard output, without calling `generateQR`; and `generateQR`
itself returns an error for an empty text, the one of the encoder, which refuses
it. -/
theorem main_empty_text (w : World) (config : Config) (h : config.text = "") :
    (∃ r, main w config = some r ∧ r.code = 1 ∧ r.stdout = [] ∧
      r.stderr = "Error: text to encode is required" :: w.usage) ∧
    ∀ err, w.encode "" = .error err →
      generateQR w config = some (.error ("failed to generate QR code: " ++ err)) := by
  constructor
  · refine ⟨⟨1, [], "Error: text to encode is required" :: w.usage⟩, ?_, rfl, rfl, rfl⟩
    unfold main
    rw [if_pos h]
  · intro err herr
    unfold generateQR
    rw [h, herr]
    split_ifs <;> rfl

theorem main_empty_text_witness :
    (∃ r, main fakeWorld ⟨"", 0, "", false, 2⟩ = some r ∧ r.code = 1 ∧ r.stdout = [] ∧
      r.stderr = "Error: text to encode is required" :: fakeWorld.usage) ∧
    ∀ err, fakeWorld.encode "" = .error err →
      generateQR fakeWorld ⟨"", 0, "", false, 2⟩ =
        some (.error ("failed to generate QR code: " ++ err)) :=
  main_empty_text fakeWorld ⟨"", 0, "", false, 2⟩ rfl

/-- C14: on a non-empty square grid every source coordinate that `scaleMatrix`
computes is below the size of the grid, every read at such a pair of coordinates
finds a cell, and `scaleMatrix` returns a grid for every target size. -/
theorem scaleMatrix_reads_in_bounds (g : List (List Bool)) (t : Int) (hne : g ≠ [])
    (hsq : IsSquare g) :
    (∀ y, origCoord (F64.div (F64.ofNat t.toNat) (F64.ofNat g.length)) g.length y
        < g.length) ∧
    (∀ y x, ∃ b, index2 g
        (origCoord (F64.div (F64.ofNat t.toNat) (F64.ofNat g.length)) g.length y)
        (origCoord (F64.div (F64.ofNat t.toNat) (F64.ofNat g.length)) g.length x)
        = some b) ∧
    ∃ r, scaleMatrix g t = some r := by
  have hlen : 0 < g.length := List.length_pos.mpr hne
  refine ⟨fun y => origCoord_lt _ _ y hlen, ?_, ?_⟩
  · intro y x
    exact index2_square g hsq _ _ (origCoord_lt _ _ y hlen) (origCoord_lt _ _ x hlen)
  · obtain ⟨r, hr, _⟩ := scaleMatrix_square g t hsq
    exact ⟨r, hr⟩

theorem scaleMatrix_reads_in_bounds_witness :
    (∀ y, origCoord (F64.div (F64.ofNat (49 : Int).toNat) (F64.ofNat stripe21.length))
        stripe21.length y < stripe21.length) ∧
    (∀ y x, ∃ b, index2 stripe21
        (origCoord (F64.div (F64.ofNat (49 : Int).toNat) (F64.ofNat stripe21.length))
          stripe21.length y)
        (origCoord (F64.div (F64.ofNat (49 : Int).toNat) (F64.ofNat stripe21.length))
          stripe21.length x)
        = some b) ∧
    ∃ r, scaleMatrix stripe21 49 = some r :=
  scaleMatrix_reads_in_bounds stripe21 49 (by decide) (by decide)

/-- C15 as stated fails: the 4 × 4 light grid is square, but with the largest `int`
as border `addBorder` panics, so neither `addBorder g b` nor
`addBorder (scaleMatrix g t) b` (here with `t = 4`) is a square grid. -/
theorem pipeline_square_fails :
    IsSquare (makeGrid 4) ∧
    ¬ ((∃ r, scaleMatrix (makeGrid 4) 4 = some r ∧ IsSquare r) ∧
      (∃ r, addBorder (makeGrid 4) maxInt = some r ∧ IsSquare r) ∧
      ∃ r s, scaleMatrix (makeGrid 4) 4 = some r ∧ addBorder r maxInt = some s ∧
        IsSquare s) := by
  refine ⟨by decide, ?_⟩
  rintro ⟨_, ⟨r, hr, _⟩, _⟩
  rw [addBorder_maxInt_panics] at hr
  cases hr

/-- C15, amended: for a square grid `g`, every target size `t` and every border size
`b` that is not positive or has `len(g) + 2b` and `t + 2b` at most the largest `int`,
`scaleMatrix g t`, `addBorder g b` and `addBorder (scaleMatrix g t) b` are returned
and are square; `scaleMatrix g t` is so for every `t`. -/
theorem pipeline_square (g : List (List Bool)) (t b : Int) (hsq : IsSquare g)
    (hfit : b ≤ 0 ∨ ((g.length : Int) + 2 * b ≤ maxInt ∧ t + 2 * b ≤ maxInt)) :
    (∃ r, scaleMatrix g t = some r ∧ IsSquare r) ∧
    (∃ r, addBorder g b = some r ∧ IsSquare r) ∧
    ∃ r s, scaleMatrix g t = some r ∧ addBorder r b = some s ∧ IsSquare s := by
  obtain ⟨r, hr, hrsq, hrlen⟩ := scaleMatrix_length g t hsq
  have hfit1 : b ≤ 0 ∨ (g.length : Int) + 2 * b ≤ maxInt := by
    rcases hfit with h | h
    · exact Or.inl h
    · exact Or.inr h.1
  have hfit2 : b ≤ 0 ∨ (r.length : Int) + 2 * b ≤ maxInt := by
    rcases hfit with h | h
    · exact Or.inl h
    · right
      rcases hrlen with h1 | h1
      · rw [h1]; exact h.1
      · rw [h1.2]; exact h.2
  obtain ⟨s, hs, hssq⟩ := addBorder_square r b hrsq hfit2
  exact ⟨⟨r, hr, hrsq⟩, addBorder_square g b hsq hfit1, r, s, hr, hs, hssq⟩

theorem pipeline_square_witness :
    (∃ r, scaleMatrix [[true, false], [false, true]] 3 = some r ∧ IsSquare r) ∧
    (∃ r, addBorder [[true, false], [false, true]] 2 = some r ∧ IsSquare r) ∧
    ∃ r s, scaleMatrix [[true, false], [false, true]] 3 = some r ∧
      addBorder r 2 = some s ∧ IsSquare s :=
  pipeline_square [[true, false], [false, true]] 3 2 (by decide) (by decide)

/-- C19: every value of `convertSizeScale` is `17 + 4 * v` for a version `v` between
1 and 40, namely `v = s + 1` for `1 <= s <= 10` and `v = 2` otherwise; 21, the size of
version 1, is never returned. -/
theorem convertSizeScale_version (s : Int) :
    ∃ v : Int, convertSizeScale s = some (17 + 4 * v) ∧ 1 ≤ v ∧ v ≤ 40 ∧
      v = (if 1 ≤ s ∧ s ≤ 10 then s + 1 else 2) ∧ convertSizeScale s ≠ some 21 := by
  unfold convertSizeScale
  by_cases h : 1 ≤ s ∧ s ≤ 10
  · have h1 : ¬ (s < 1 ∨ s > 10) := by omega
    refine ⟨s + 1, ?_, by omega, by omega, by rw [if_pos h], ?_⟩
    · rw [if_neg h1]
      obtain ⟨hlo, hhi⟩ := h
      interval_cases s <;> rfl
    · rw [if_neg h1]
      obtain ⟨hlo, hhi⟩ := h
      interval_cases s <;> decide
  · have h1 : s < 1 ∨ s > 10 := by omega
    refine ⟨2, ?_, by decide, by decide, by rw [if_neg h], ?_⟩
    · rw [if_pos h1]
      rfl
    · rw [if_pos h1]
      decide

/-- C16: for a non-empty square grid of size `n` and a whole factor `k >= 2`, the
cell `(y, x)` of `scaleMatrix g (k * n)` is `g[y / k][x / k]`, for every size
`k * n` below `2 ^ 53`, which every grid that fits in memory is. -/
theorem scaleMatrix_whole_enlarge (g : List (List Bool)) (k : Nat) (hne : g ≠ [])
    (hsq : IsSquare g) (hk : 2 ≤ k) (hfit : k * g.length < 2 ^ 53) :
    ∃ r, scaleMatrix g ((k * g.length : Nat) : Int) = some r ∧
      ∀ y x, y < k * g.length → x < k * g.length →
        index2 r y x = index2 g (y / k) (x / k) := by
  have hlen : 0 < g.length := List.length_pos.mpr hne
  have hlt : g.length < k * g.length := by
    have : 2 * g.length ≤ k * g.length := Nat.mul_le_mul_right _ hk
    omega
  obtain ⟨r, hr, _, hcell⟩ := scaleMatrix_spec g ((k * g.length : Nat) : Int) hne hsq
    (by omega) (by omega)
  refine ⟨r, hr, ?_⟩
  intro y x hy hx
  have h := hcell y x (by rw [Int.toNat_ofNat]; exact hy) (by rw [Int.toNat_ofNat]; exact hx)
  rw [Int.toNat_ofNat, origCoord_whole g.length k y hlen (by omega) hy hfit,
    origCoord_whole g.length k x hlen (by omega) hx hfit] at h
  exact h

theorem scaleMatrix_whole_enlarge_witness :
    ∃ r, scaleMatrix [[true, false], [false, true]]
        ((2 * [[true, false], [false, true]].length : Nat) : Int) = some r ∧
      ∀ y x, y < 2 * [[true, false], [false, true]].length →
        x < 2 * [[true, false], [false, true]].length →
        index2 r y x = index2 [[true, false], [false, true]] (y / 2) (x / 2) :=
  scaleMatrix_whole_enlarge [[true, false], [false, true]] 2 (by decide) (by decide)
    (by decide) (by decide)

/-- C18: enlarging a non-empty square grid of size `n` to `t > n` (sizes with
`t * n <= 2 ^ 51`, which grids that fit in memory have): the cell `(y, x)` of the
result is the source cell at the mapped coordinates, every source index `i < n` is
the mapped coordinate of some `y < t`, and the number of `y < t` mapped to `i` is
`floor (t / n)` or `ceil (t / n)`. -/
theorem scaleMatrix_enlarge_near_uniform (g : List (List Bool)) (t : Nat) (hne : g ≠ [])
    (hsq : IsSquare g) (ht : g.length < t) (hfit : t * g.length ≤ 2 ^ 51) :
    ∃ r, scaleMatrix g (t : Int) = some r ∧
      (∀ y x, y < t → x < t →
        index2 r y x =
          index2 g (origCoord (F64.div (F64.ofNat t) (F64.ofNat g.length)) g.length y)
            (origCoord (F64.div (F64.ofNat t) (F64.ofNat g.length)) g.length x)) ∧
      ∀ i, i < g.length →
        (∃ y, y < t ∧
          origCoord (F64.div (F64.ofNat t) (F64.ofNat g.length)) g.length y = i) ∧
        (((Finset.range t).filter (fun y =>
            origCoord (F64.div (F64.ofNat t) (F64.ofNat g.length)) g.length y = i)).card
            = t / g.length ∨
          ((Finset.range t).filter (fun y =>
            origCoord (F64.div (F64.ofNat t) (F64.ofNat g.length)) g.length y = i)).card
            = (t + g.length - 1) / g.length) := by
  have hlen : 0 < g.length := List.length_pos.mpr hne
  have ht0 : 0 < t := by omega
  obtain ⟨r, hr, _, hcell⟩ := scaleMatrix_spec g (t : Int) hne hsq (by omega) (by omega)
  refine ⟨r, hr, ?_, ?_⟩
  · intro y x hy hx
    have h := hcell y x (by rw [Int.toNat_ofNat]; exact hy) (by rw [Int.toNat_ofNat]; exact hx)
    rw [Int.toNat_ofNat] at h
    exact h
  · intro i hi
    have hwhole : g.length ∣ t → ∀ y, y < t →
        origCoord (F64.div (F64.ofNat t) (F64.ofNat g.length)) g.length y =
          y * g.length / t := by
      intro hd y hy
      obtain ⟨k, hk⟩ := hd
      have hk0 : 0 < k := by
        rcases Nat.eq_zero_or_pos k with h0 | h0
        · rw [h0] at hk
          omega
        · exact h0
      have hkn : t = k * g.length := by rw [hk, Nat.mul_comm]
      have ht51 : t ≤ 2 ^ 51 := le_trans (Nat.le_mul_of_pos_right t hlen) hfit
      have h53 : k * g.length < 2 ^ 53 := by
        rw [← hkn]
        exact lt_of_le_of_lt ht51 (by norm_num)
      rw [hkn] at hy ⊢
      rw [origCoord_whole g.length k y hlen hk0 hy h53, Nat.mul_div_mul_right _ _ hlen]
    obtain ⟨hlo, hhi⟩ := count_near_uniform
      (origCoord (F64.div (F64.ofNat t) (F64.ofNat g.length)) g.length) g.length t hlen ht0
      (fun y hy => origCoord_near g.length t y hlen hy hfit) hwhole i hi
    obtain ⟨_, _, _, _, hE5, hE6⟩ := ceil_steps g.length 0 t hlen
    have hfl : 1 ≤ t / g.length := (Nat.one_le_div_iff hlen).mpr (le_of_lt ht)
    constructor
    · have hpos : 0 < ((Finset.range t).filter (fun y =>
          origCoord (F64.div (F64.ofNat t) (F64.ofNat g.length)) g.length y = i)).card := by
        omega
      obtain ⟨y, hy⟩ := Finset.card_pos.mp hpos
      simp only [Finset.mem_filter, Finset.mem_range] at hy
      exact ⟨y, hy.1, hy.2⟩
    · by_cases hd : g.length ∣ t
      · have := hE5 hd
        omega
      · have := hE6 hd
        omega

theorem scaleMatrix_enlarge_near_uniform_witness :
    ∃ r, scaleMatrix [[true, false], [false, true]] ((3 : Nat) : Int) = some r ∧
      (∀ y x, y < 3 → x < 3 →
        index2 r y x =
          index2 [[true, false], [false, true]]
            (origCoord (F64.div (F64.ofNat 3)
              (F64.ofNat [[true, false], [false, true]].length))
              [[true, false], [false, true]].length y)
            (origCoord (F64.div (F64.ofNat 3)
              (F64.ofNat [[true, false], [false, true]].length))
              [[true, false], [false, true]].length x)) ∧
      ∀ i, i < [[true, false], [false, true]].length →
        (∃ y, y < 3 ∧
          origCoord (F64.div (F64.ofNat 3)
            (F64.ofNat [[true, false], [false, true]].length))
            [[true, false], [false, true]].length y = i) ∧
        (((Finset.range 3).filter (fun y =>
            origCoord (F64.div (F64.ofNat 3)
              (F64.ofNat [[true, false], [false, true]].length))
              [[true, false], [false, true]].length y = i)).card
            = 3 / [[true, false], [false, true]].length ∨
          ((Finset.range 3).filter (fun y =>
            origCoord (F64.div (F64.ofNat 3)
              (F64.ofNat [[true, false], [false, true]].length))
              [[true, false], [false, true]].length y = i)).card
            = (3 + [[true, false], [false, true]].length - 1) /
              [[true, false], [false, true]].length) :=
  scaleMatrix_enlarge_near_uniform [[true, false], [false, true]] 3 (by decide) (by decide)
    (by decide) (by decide)

/-- C17, at a failing input: scaling the 186 × 186 grid `stripe 186 93` (row 93 dark)
down by the whole factor 93 to size 2.  The claim gives the cell `(1, 0)` the value
of `g[93 * 1][93 * 0]`, which is dark.  The code computes `scale = 2 / 186` in
binary64, `0.010752688172043012`, which lies above 1/93; `1 / scale` is then
`92.99999999999999`, `int` truncates it to 92, and the cell is copied from the
light row 92. -/
theorem scaleMatrix_whole_shrink_off_by_one :
    index2 (stripe 186 93) (93 * 1) (93 * 0) = some true ∧
    F64.div (F64.ofNat 2) (F64.ofNat 186) = ⟨6198502712940038, -59⟩ ∧
    F64.div (F64.ofNat 1) ⟨6198502712940038, -59⟩ = ⟨6544293208522751, -46⟩ ∧
    origCoord (F64.div (F64.ofNat 2) (F64.ofNat 186)) 186 1 = 92 ∧
    ∃ r, scaleMatrix (stripe 186 93) 2 = some r ∧ index2 r 1 0 = some false := by
  have hscale : F64.div (F64.ofNat 2) (F64.ofNat 186) = ⟨6198502712940038, -59⟩ := by
    set_option maxRecDepth 100000 in decide
  have hquot : F64.div (F64.ofNat 1) ⟨6198502712940038, -59⟩ =
      ⟨6544293208522751, -46⟩ := by
    set_option maxRecDepth 100000 in decide
  have hco : origCoord (F64.div (F64.ofNat 2) (F64.ofNat 186)) 186 1 = 92 := by
    set_option maxRecDepth 100000 in decide
  have hco0 : origCoord (F64.div (F64.ofNat 2) (F64.ofNat 186)) 186 0 = 0 :=
    origCoord_zero _ _ (by decide)
  refine ⟨?_, hscale, hquot, hco, ?_⟩
  · rw [index2_stripe 186 93 _ _ (by decide) (by decide)]
    rfl
  · have hne : stripe 186 93 ≠ [] := by
      intro hc
      have := stripe_length 186 93
      rw [hc] at this
      simp at this
    obtain ⟨r, hr, _, hcell⟩ :=
      scaleMatrix_spec (stripe 186 93) 2 hne (stripe_square 186 93) (by decide)
        (by rw [stripe_length]; decide)
    refine ⟨r, hr, ?_⟩
    have h := hcell 1 0 (by decide) (by decide)
    have ht : (2 : Int).toNat = 2 := by decide
    rw [stripe_length, ht, hco, hco0] at h
    rw [h, index2_stripe 186 93 _ _ (by decide) (by decide)]
    rfl

/-- C20, at a failing input: the 2 × 2 grid with a dark first row and a light second
row, scaled up by the whole factor 93 to size 186 and back down to size 2.  On the
way down the code maps row 1 to `int(1 / (2 / 186)) = 92` (the exact quotient is 93),
a row of the enlarged grid that comes from source row 0, so the second row of the
result is dark and the result is not the grid that was put in. -/
theorem scaleMatrix_round_trip_fails :
    ∃ r1 r2, scaleMatrix [[true, true], [false, false]] ((93 * 2 : Nat) : Int) = some r1 ∧
      scaleMatrix r1 2 = some r2 ∧
      index2 r2 1 0 = some true ∧
      index2 [[true, true], [false, false]] 1 0 = some false ∧
      r2 ≠ [[true, true], [false, false]] := by
  obtain ⟨r1, hr1, hshape1, hcell1⟩ :=
    scaleMatrix_spec [[true, true], [false, false]] ((93 * 2 : Nat) : Int) (by decide)
      (by decide) (by decide) (by decide)
  have ht1 : (((93 * 2 : Nat) : Int)).toNat = 186 := by decide
  rw [ht1] at hshape1 hcell1
  obtain ⟨hlen1, _⟩ := length_of_shape r1 186 hshape1
  have hne1 : r1 ≠ [] := by
    intro hc
    rw [hc] at hlen1
    simp at hlen1
  obtain ⟨r2, hr2, _, hcell2⟩ :=
    scaleMatrix_spec r1 2 hne1 (square_of_shape r1 186 hshape1) (by decide)
      (by rw [hlen1]; decide)
  have hup : origCoord (F64.div (F64.ofNat 186)
      (F64.ofNat [[true, true], [false, false]].length))
      [[true, true], [false, false]].length 92 = 0 := by
    set_option maxRecDepth 100000 in decide
  have hup0 : origCoord (F64.div (F64.ofNat 186)
      (F64.ofNat [[true, true], [false, false]].length))
      [[true, true], [false, false]].length 0 = 0 :=
    origCoord_zero _ _ (by decide)
  have hdown : origCoord (F64.div (F64.ofNat 2) (F64.ofNat 186)) 186 1 = 92 := by
    set_option maxRecDepth 100000 in decide
  have hdown0 : origCoord (F64.div (F64.ofNat 2) (F64.ofNat 186)) 186 0 = 0 :=
    origCoord_zero _ _ (by decide)
  have h1 := hcell1 92 0 (by decide) (by decide)
  rw [hup, hup0] at h1
  have h2 := hcell2 1 0 (by decide) (by decide)
  have ht2 : (2 : Int).toNat = 2 := by decide
  rw [hlen1, ht2, hdown, hdown0, h1] at h2
  have hcellv : index2 r2 1 0 = some true := by
    rw [h2]
    rfl
  refine ⟨r1, r2, hr1, hr2, hcellv, rfl, ?_⟩
  intro hc
  rw [hc] at hcellv
  exact absurd hcellv (by decide)

/-- C21: for `n >= 1`, `t >= 1` and `y < t` the exact quotient has
`floor (y / (t / n)) = floor (y * n / t) <= n - 1`, so the clamp of the specification
changes nothing; and in the code, for sizes with `t * n <= 2 ^ 51` (which grids that
fit in memory have), the binary64 value `int(float64(y) / scale)` is non-negative and
below `n`, so the branch `orig >= originalSize` is not taken and the coordinate is
that value. -/
theorem clamp_never_taken (n t y : Nat) (hn : 1 ≤ n) (ht : 1 ≤ t) (hy : y < t) :
    ⌊(y : ℚ) / ((t : ℚ) / (n : ℚ))⌋₊ = y * n / t ∧
    y * n / t ≤ n - 1 ∧
    exactCoord t n y = y * n / t ∧
    (t * n ≤ 2 ^ 51 →
      0 ≤ (F64.div (F64.ofNat y) (F64.div (F64.ofNat t) (F64.ofNat n))).val ∧
      (F64.div (F64.ofNat y) (F64.div (F64.ofNat t) (F64.ofNat n))).toNat < n ∧
      origCoord (F64.div (F64.ofNat t) (F64.ofNat n)) n y =
        (F64.div (F64.ofNat y) (F64.div (F64.ofNat t) (F64.ofNat n))).toNat) := by
  have hnq : (n : ℚ) ≠ 0 := by
    have : (0 : ℚ) < (n : ℚ) := by exact_mod_cast hn
    exact ne_of_gt this
  have htq : (t : ℚ) ≠ 0 := by
    have : (0 : ℚ) < (t : ℚ) := by exact_mod_cast ht
    exact ne_of_gt this
  have hfloor : ⌊(y : ℚ) / ((t : ℚ) / (n : ℚ))⌋₊ = y * n / t := by
    have h1 : (y : ℚ) / ((t : ℚ) / (n : ℚ)) = ((y * n : ℕ) : ℚ) / ((t : ℕ) : ℚ) := by
      push_cast
      field_simp
    rw [h1, Nat.floor_div_eq_div]
  have hlt : y * n / t < n :=
    (Nat.div_lt_iff_lt_mul ht).mpr
      ((Nat.mul_lt_mul_of_pos_right hy hn).trans_eq (Nat.mul_comm t n))
  have hle : y * n / t ≤ n - 1 := Nat.le_sub_one_of_lt hlt
  refine ⟨hfloor, hle, ?_, ?_⟩
  · unfold exactCoord
    rw [hfloor]
    exact min_eq_left hle
  · intro hfit
    have hun := unclamped_lt n t y hn hy hfit
    refine ⟨?_, hun, ?_⟩
    · unfold F64.val
      positivity
    · unfold origCoord
      simp only
      rw [if_neg (by omega)]

theorem clamp_never_taken_witness :
    ⌊((35 : ℕ) : ℚ) / (((49 : ℕ) : ℚ) / ((21 : ℕ) : ℚ))⌋₊ = 35 * 21 / 49 ∧
    35 * 21 / 49 ≤ 21 - 1 ∧
    exactCoord 49 21 35 = 35 * 21 / 49 ∧
    (49 * 21 ≤ 2 ^ 51 →
      0 ≤ (F64.div (F64.ofNat 35) (F64.div (F64.ofNat 49) (F64.ofNat 21))).val ∧
      (F64.div (F64.ofNat 35) (F64.div (F64.ofNat 49) (F64.ofNat 21))).toNat < 21 ∧
      origCoord (F64.div (F64.ofNat 49) (F64.ofNat 21)) 21 35 =
        (F64.div (F64.ofNat 35) (F64.div (F64.ofNat 49) (F64.ofNat 21))).toNat) :=
  clamp_never_taken 21 49 35 (by decide) (by decide) (by decide)

end QR
